import Mathlib

/-!
Verification development for the event-scraper crawl/ingestion pipeline.

The Python sources are shallowly embedded: Python strings become `List Char`,
sets become membership-checked lists, dictionaries become association lists or
fixed-schema structures, and effectful code is modelled by explicit state
passing (with injected faults for the error-handling components).
-/

/-! ## Python string primitives -/

/-- Python `str.strip` / regex `\s` whitespace (ASCII portion; the inputs in
this development are ASCII). -/
def pyIsSpace (c : Char) : Bool :=
  c = ' ' || c = '\t' || c = '\n' || c = '\r' || c = '\x0b' || c = '\x0c'

/-- Python `str.strip()`: drop leading and trailing whitespace. -/
def pyStrip (s : List Char) : List Char :=
  ((s.dropWhile pyIsSpace).reverse.dropWhile pyIsSpace).reverse

/-- Characters of a Lean string literal, for writing embedded Python strings. -/
def lc (s : String) : List Char := s.toList

/-! ## `functions.clean_url`

`clean_url` first runs `re.sub(r'\[.*?\]', '', url)`.  The pattern is
non-greedy and `.` does not match a newline, so each match runs from a `[` to
the nearest following `]` with no newline in between; scanning resumes after
the removed match, and a `[` with no reachable `]` is left in place. -/

/-- Characters remaining after the nearest `]` reachable without crossing a
newline (`none` when the regex `\[.*?\]` cannot close at this `[`). -/
def findCloseBr : List Char → Option (List Char)
  | [] => none
  | c :: rest =>
    if c = ']' then some rest
    else if c = '\n' then none
    else findCloseBr rest

/-- One fuel unit is spent per character consumed, so `fuel = s.length`
makes the fueled scan exact (see `rmBracketed`). -/
def rmBracketedGo : Nat → List Char → List Char
  | 0, s => s
  | _ + 1, [] => []
  | fuel + 1, c :: rest =>
    if c = '[' then
      match findCloseBr rest with
      | some after => rmBracketedGo fuel after
      | none => c :: rmBracketedGo fuel rest
    else c :: rmBracketedGo fuel rest

/-- `re.sub(r'\[.*?\]', '', url)`. -/
def rmBracketed (s : List Char) : List Char :=
  rmBracketedGo s.length s

/-- `re.sub(r'\(|\)', '', url)`: delete every parenthesis. -/
def rmParens (s : List Char) : List Char :=
  s.filter (fun c => !(c = '(' || c = ')'))

/-- `urllib.parse.urlparse` raises `ValueError` on a netloc with unbalanced
square brackets ("Invalid IPv6 URL"); `clean_url` turns that into `''`. -/
def urlparseRaises (u : List Char) : Bool :=
  let afterScheme := if (lc "https://").isPrefixOf u then u.drop 8 else u.drop 7
  let netloc := afterScheme.takeWhile (fun c => !(c = '/' || c = '?' || c = '#'))
  (netloc.contains '[') != (netloc.contains ']')

/-- `functions.clean_url`.  After markdown stripping, a URL is kept only when
it starts with `http://` or `https://` (so the `data:` test and the
relative-URL branch and the scheme-coercion branch of the source are mirrored
here, the latter two being unreachable once the scheme test has passed). -/
def clean_url (url : List Char) : List Char :=
  let u := pyStrip (rmParens (rmBracketed url))
  if (lc "data:").isPrefixOf u ||
      !((lc "http://").isPrefixOf u || (lc "https://").isPrefixOf u) then []
  else if u.head? = some '/' then u
  else if urlparseRaises u then []
  else u

/-! ## `utils.URLManager` (the crawl frontier) -/

/-- State of `utils.URLManager`: `discovered_urls` and `processed_urls` are
Python sets (modelled as membership lists), `url_queue` is a deque. -/
structure URLManager where
  discovered_urls : List (List Char)
  processed_urls : List (List Char)
  url_queue : List (List Char)
deriving DecidableEq, Repr

def URLManager.empty : URLManager := ⟨[], [], []⟩

/-- `URLManager.has_seen_url`: already discovered or already processed. -/
def has_seen_url (st : URLManager) (u : List Char) : Prop :=
  u ∈ st.discovered_urls ∨ u ∈ st.processed_urls

instance (st : URLManager) (u : List Char) : Decidable (has_seen_url st u) := by
  unfold has_seen_url; infer_instance

/-- One iteration of the loop in `URLManager.add_urls`. -/
def addOneUrl (st : URLManager) (url : List Char) : URLManager :=
  let c := clean_url url
  if c ≠ [] ∧ ¬ has_seen_url st c then
    { st with
      discovered_urls := st.discovered_urls ++ [c]
      url_queue := st.url_queue ++ [c] }
  else st

/-- `URLManager.add_urls`. -/
def add_urls (st : URLManager) (urls : List (List Char)) : URLManager :=
  urls.foldl addOneUrl st

/-- `main.EventFinder.process_url_and_extract` priority insertion:
`for link in reversed(decision["links"]): self.url_manager.url_queue.appendleft(link)`.
No validation and no `discovered_urls` update happens on this path. -/
def addPriorityLinks (st : URLManager) (links : List (List Char)) : URLManager :=
  { st with url_queue := links.reverse.foldl (fun q l => l :: q) st.url_queue }

/-- The `while` loop of `URLManager.get_next_url`: pop from the left, skip
entries already processed, and mark the returned URL processed.  Returns
`(result, remaining queue, processed set)`. -/
def getNextLoop : List (List Char) → List (List Char) →
    Option (List Char) × List (List Char) × List (List Char)
  | [], processed => (none, [], processed)
  | u :: rest, processed =>
    if u ∈ processed then getNextLoop rest processed
    else (some u, rest, u :: processed)

/-- `URLManager.get_next_url`. -/
def get_next_url (st : URLManager) : Option (List Char) × URLManager :=
  let r := getNextLoop st.url_queue st.processed_urls
  (r.1, { st with url_queue := r.2.1, processed_urls := r.2.2 })

/-! A frontier history: any interleaving of `add_urls`, priority insertion
and `get_next_url` calls. -/

inductive FrontierOp where
  | add (urls : List (List Char))
  | addPriority (links : List (List Char))
  | next
deriving Repr

/-- Run a sequence of frontier operations, collecting every URL that a
`get_next_url` call actually returned, in order. -/
def runOps : URLManager → List FrontierOp → URLManager × List (List Char)
  | st, [] => (st, [])
  | st, (FrontierOp.add urls) :: rest => runOps (add_urls st urls) rest
  | st, (FrontierOp.addPriority ls) :: rest => runOps (addPriorityLinks st ls) rest
  | st, FrontierOp.next :: rest =>
    let r := get_next_url st
    let t := runOps r.2 rest
    (t.1, match r.1 with | some u => u :: t.2 | none => t.2)

/-! Frontier lemmas -/

theorem getNextLoop_none {q p} (h : (getNextLoop q p).1 = none) :
    (getNextLoop q p).2.2 = p := by
  induction q with
  | nil => rfl
  | cons u rest ih =>
    by_cases hc : u ∈ p
    · simpa [getNextLoop, hc] using ih (by simpa [getNextLoop, hc] using h)
    · simp [getNextLoop, hc] at h

theorem getNextLoop_some {q p u} (h : (getNextLoop q p).1 = some u) :
    ¬ u ∈ p ∧ (getNextLoop q p).2.2 = u :: p := by
  induction q with
  | nil => simp [getNextLoop] at h
  | cons v rest ih =>
    by_cases hc : v ∈ p
    · simpa [getNextLoop, hc] using ih (by simpa [getNextLoop, hc] using h)
    · have hv : v = u := by simpa [getNextLoop, hc] using h
      subst hv
      exact ⟨hc, by simp [getNextLoop, hc]⟩

theorem getNextLoop_processed_subset {q p} :
    ∀ x ∈ p, x ∈ (getNextLoop q p).2.2 := by
  intro x hx
  induction q with
  | nil => simpa [getNextLoop] using hx
  | cons u rest ih =>
    by_cases hc : u ∈ p
    · simpa [getNextLoop, hc] using ih
    · simp [getNextLoop, hc, hx]

theorem addOneUrl_processed (st : URLManager) (url : List Char) :
    (addOneUrl st url).processed_urls = st.processed_urls := by
  unfold addOneUrl
  by_cases h : clean_url url ≠ [] ∧ ¬ has_seen_url st (clean_url url)
  · simp [h]
  · simp [h]

theorem add_urls_processed (st : URLManager) (urls : List (List Char)) :
    (add_urls st urls).processed_urls = st.processed_urls := by
  induction urls generalizing st with
  | nil => rfl
  | cons u rest ih =>
    have h1 : (add_urls (addOneUrl st u) rest).processed_urls
        = (addOneUrl st u).processed_urls := ih (addOneUrl st u)
    calc (add_urls st (u :: rest)).processed_urls
        = (add_urls (addOneUrl st u) rest).processed_urls := rfl
      _ = (addOneUrl st u).processed_urls := h1
      _ = st.processed_urls := addOneUrl_processed st u

theorem addPriorityLinks_processed (st : URLManager) (ls : List (List Char)) :
    (addPriorityLinks st ls).processed_urls = st.processed_urls := rfl

/-- Main invariant behind the dedup guarantee: the URLs a run returns are
pairwise distinct and none of them was already in the processed set at the
start of the run. -/
theorem runOps_fresh (ops : List FrontierOp) :
    ∀ st : URLManager,
      (runOps st ops).2.Nodup ∧
        ∀ u ∈ (runOps st ops).2, ¬ u ∈ st.processed_urls := by
  induction ops with
  | nil => intro st; simp [runOps]
  | cons op rest ih =>
    intro st
    cases op with
    | add urls =>
      have h := ih (add_urls st urls)
      simpa [runOps, add_urls_processed] using h
    | addPriority ls =>
      have h := ih (addPriorityLinks st ls)
      simpa [runOps, addPriorityLinks_processed] using h
    | next =>
      have h := ih (get_next_url st).2
      rcases hr : (get_next_url st).1 with _ | u
      · -- nothing returned: processed set unchanged
        have hp : (get_next_url st).2.processed_urls = st.processed_urls := by
          simpa [get_next_url] using getNextLoop_none (by simpa [get_next_url] using hr)
        refine ⟨?_, ?_⟩
        · simpa [runOps, hr] using h.1
        · intro u hu
          have := h.2 u (by simpa [runOps, hr] using hu)
          simpa [hp] using this
      · -- returned u: u was unprocessed and is marked processed afterwards
        have hsome := getNextLoop_some (q := st.url_queue) (p := st.processed_urls)
          (by simpa [get_next_url] using hr)
        have hp : (get_next_url st).2.processed_urls = u :: st.processed_urls := by
          simpa [get_next_url] using hsome.2
        refine ⟨?_, ?_⟩
        · have hnotin : ¬ u ∈ (runOps (get_next_url st).2 rest).2 := by
            intro hmem
            exact h.2 u hmem (by simp [hp])
          simpa [runOps, hr] using And.intro hnotin h.1
        · intro v hv
          rcases (by simpa [runOps, hr] using hv :
              v = u ∨ v ∈ (runOps (get_next_url st).2 rest).2) with hvu | hvm
          · subst hvu; exact hsome.1
          · intro hvp
            exact h.2 v hvm (by simp [hp, hvp])

/-- C2: starting from an empty frontier, across any sequence of `add_urls`,
priority insertions and `get_next_url` calls, no URL is ever returned twice
by `get_next_url` — even if re-submitted after being returned. -/
theorem frontier_never_returns_twice (ops : List FrontierOp) :
    (runOps URLManager.empty ops).2.Nodup :=
  (runOps_fresh ops URLManager.empty).1

/-! ## `functions.is_valid_url` (the event-likeness filter)

Used by `extract_unique_urls` on the search-result path; `URLManager.add_urls`
never calls it. -/

/-- The source's term list. Note that it contains `event`, which the spec's
§4.1 list omits. -/
def eventTerms : List (List Char) :=
  [lc "conference", lc "summit", lc "symposium", lc "event", lc "expo",
   lc "meetup", lc "forum", lc "congress", lc "convention", lc "workshop",
   lc "ai-", lc "ml-", lc "tech-", lc "artificial-intelligence"]

def isSchemeChar (c : Char) : Bool :=
  c.isAlphanum || c = '+' || c = '-' || c = '.'

/-- Python `in` on strings: contiguous-substring test. -/
def listInfixOf : List Char → List Char → Bool
  | pat, [] => pat.isEmpty
  | pat, s@(_ :: rest) => pat.isPrefixOf s || listInfixOf pat rest

/-- `urlparse` scheme split: the part before the first `:` is the scheme when
it is a valid scheme token (letter first, then letters/digits/`+-.`);
otherwise no scheme is recognised.  Returns `(lower-cased scheme, rest)`. -/
def splitScheme (u : List Char) : List Char × List Char :=
  let pre := u.takeWhile (fun c => c ≠ ':')
  if pre.length < u.length ∧ pre ≠ [] ∧ pre.headI.isAlpha ∧ pre.all isSchemeChar then
    (pre.map Char.toLower, u.drop (pre.length + 1))
  else ([], u)

/-- `urlparse` netloc/path split of the part after the scheme: a netloc is
present only after `//`, running to the first `/`, `?` or `#`; the path runs
to the first `?` or `#`. -/
def splitNetlocPath (rest : List Char) : List Char × List Char :=
  if (lc "//").isPrefixOf rest then
    let netloc := (rest.drop 2).takeWhile (fun c => !(c = '/' || c = '?' || c = '#'))
    let after := (rest.drop 2).drop netloc.length
    (netloc, after.takeWhile (fun c => !(c = '?' || c = '#')))
  else ([], rest.takeWhile (fun c => !(c = '?' || c = '#')))

/-- `functions.is_valid_url`: scheme/netloc checks plus the event-term /
target-year test on `netloc + path` (lower-cased).  A `ValueError` from
`urlparse` (unbalanced square brackets in the netloc) hits the `except`
clause and yields `False`. -/
def is_valid_url (url : List Char) : Bool :=
  if (lc "data:").isPrefixOf url then false
  else
    let sr := splitScheme url
    let np := splitNetlocPath sr.2
    if (np.1.contains '[') != (np.1.contains ']') then false
    else if sr.1 = [] ∨ np.1 = [] then false
    else if ¬(sr.1 = lc "http" ∨ sr.1 = lc "https") then false
    else
      let hay := (np.1 ++ np.2).map Char.toLower
      eventTerms.any (fun t => listInfixOf t hay) || listInfixOf (lc "2025") hay

/-! ## C5: what `add_urls` actually filters -/

/-- Modelled from the amended claim's words: a raw string is accepted exactly
when `clean_url` keeps it (http/https, not `data:`, after markdown stripping)
and the same cleaned URL was not accepted earlier; accepted URLs are appended
in input order. -/
def acceptedUrls (urls : List (List Char)) : List (List Char) :=
  urls.foldl (fun acc u =>
    let c := clean_url u
    if c ≠ [] ∧ ¬ c ∈ acc then acc ++ [c] else acc) []

theorem add_urls_from_scratch (urls : List (List Char)) :
    ∀ st : URLManager, st.processed_urls = [] →
      st.discovered_urls = st.url_queue →
      (add_urls st urls).url_queue =
          urls.foldl (fun acc u =>
            let c := clean_url u
            if c ≠ [] ∧ ¬ c ∈ acc then acc ++ [c] else acc) st.url_queue ∧
        (add_urls st urls).discovered_urls = (add_urls st urls).url_queue ∧
        (add_urls st urls).processed_urls = [] := by
  induction urls with
  | nil => intro st h1 h2; exact ⟨rfl, h2, h1⟩
  | cons u rest ih =>
    intro st h1 h2
    by_cases hc : clean_url u ≠ [] ∧ ¬ clean_url u ∈ st.url_queue
    · have hseen : ¬ has_seen_url st (clean_url u) := by
        unfold has_seen_url
        rw [h1, h2]
        simpa using hc.2
      have hstep : addOneUrl st u =
          { st with discovered_urls := st.discovered_urls ++ [clean_url u],
                    url_queue := st.url_queue ++ [clean_url u] } := by
        unfold addOneUrl
        simp [hc.1, hseen]
      have := ih (addOneUrl st u) (by rw [hstep]; exact h1)
        (by rw [hstep]; simpa using congrArg (· ++ [clean_url u]) h2)
      simpa [add_urls, List.foldl_cons, hstep, hc] using this
    · have hstay : addOneUrl st u = st := by
        unfold addOneUrl
        rcases not_and_or.mp hc with h | h
        · simp [not_not.mp (by simpa using h)]
        · have : has_seen_url st (clean_url u) := by
            unfold has_seen_url
            rw [h1, h2]
            simpa using not_not.mp h
          simp [this]
      have := ih (addOneUrl st u) (by rw [hstay]; exact h1) (by rw [hstay]; exact h2)
      simp only [add_urls, List.foldl_cons, hstay] at this ⊢
      simpa [hc] using this

/-- C5 (amended): `add_urls` accepts exactly the strings `clean_url` keeps
(http/https and not `data:` after markdown stripping) that were not already
seen — no event-likeness test is applied on this path — and in particular the
three invalid-scheme inputs of the claim leave the frontier empty. -/
theorem add_urls_validation (urls : List (List Char)) :
    (add_urls URLManager.empty urls).url_queue = acceptedUrls urls ∧
      (add_urls URLManager.empty urls).discovered_urls = acceptedUrls urls ∧
      (add_urls URLManager.empty
          [lc "javascript:alert(1)", lc "data:text/html,x", lc "ftp://example.com"])
        = URLManager.empty := by
  have h := add_urls_from_scratch urls URLManager.empty rfl rfl
  refine ⟨h.1, h.2.1.trans h.1, by decide⟩

/-- C5 counterexample: the claim requires acceptance to imply event-likeness
(fixed term set or target year), but `add_urls` accepts
`https://example.com/randompage`, which `is_valid_url` — the source's
event-likeness test — rejects. -/
theorem add_urls_ignores_eventlikeness :
    (add_urls URLManager.empty [lc "https://example.com/randompage"]).url_queue
        = [lc "https://example.com/randompage"] ∧
      is_valid_url (lc "https://example.com/randompage") = false := by decide

/-! ## C6: frontier ordering -/

theorem addPriorityLinks_queue (st : URLManager) (ls : List (List Char)) :
    (addPriorityLinks st ls).url_queue = ls ++ st.url_queue := by
  suffices h : ∀ q : List (List Char), ls.reverse.foldl (fun q l => l :: q) q = ls ++ q by
    exact h st.url_queue
  induction ls with
  | nil => intro q; rfl
  | cons a tl ih =>
    intro q
    simp [List.reverse_cons, List.foldl_append, ih]

/-- C6 (amended): with URL-shaped inputs (bare names like `"a"` are rejected
by `clean_url`, see the counterexample), `add_urls` appends in input order so
the first added URL is returned first, and the priority insertion of
`process_url_and_extract` pushes links to the front in reverse input order so
that the first priority link is returned before anything previously queued. -/
theorem frontier_ordering (st : URLManager) (ls : List (List Char)) :
    (addPriorityLinks st ls).url_queue = ls ++ st.url_queue ∧
      (get_next_url (add_urls URLManager.empty [lc "http://a", lc "http://b"])).1
        = some (lc "http://a") ∧
      (get_next_url (addPriorityLinks
          (add_urls URLManager.empty [lc "http://a", lc "http://b"])
          [lc "http://x", lc "http://y"])).1 = some (lc "http://x") :=
  ⟨addPriorityLinks_queue st ls, by decide, by decide⟩

/-- C6 counterexample: on the claim's literal inputs, `add(["a","b"])`
followed by `next()` returns nothing at all — `clean_url` rejects bare names
— rather than `"a"` as claimed. -/
theorem ordering_claim_fails_on_bare_names :
    clean_url (lc "a") = [] ∧
      (get_next_url (add_urls URLManager.empty [lc "a", lc "b"])).1 = none := by
  decide

/-! ## `utils.EventDataStore.store_event` (the Record Store)

The events folder is modelled as a list of `(file name, stored record)`
pairs in creation order.  `store_event` globs `event*.json`, extracts the
numeric indices via `f.stem.replace('event', '').isdigit()` / `int(...)`,
and writes the incoming record to `event{max+1}.json` (or `event1.json`). -/

abbrev EventFolder (α : Type) := List (List Char × α)

/-- Python `str.endswith(suf)`. -/
def pyEndsWith (suf s : List Char) : Bool :=
  suf.reverse.isPrefixOf s.reverse

/-- Python `str.isdigit()` (ASCII digits; `''.isdigit()` is `False`). -/
def pyIsDigitStr (s : List Char) : Bool :=
  !s.isEmpty && s.all Char.isDigit

/-- Python `str.replace(pat, '')`: delete every left-to-right,
non-overlapping occurrence of `pat`.  One fuel unit is spent per step and
every step consumes at least one character, so `fuel = s.length` is exact
(see `replaceDrop`). -/
def replaceDropGo (pat : List Char) : Nat → List Char → List Char
  | 0, s => s
  | _ + 1, [] => []
  | fuel + 1, c :: rest =>
    if pat.isPrefixOf (c :: rest) then replaceDropGo pat fuel ((c :: rest).drop pat.length)
    else c :: replaceDropGo pat fuel rest

def replaceDrop (pat s : List Char) : List Char :=
  replaceDropGo pat s.length s

/-- `int(s)` for a digit string. -/
def digitsToNat (s : List Char) : Nat :=
  s.foldl (fun a c => a * 10 + (c.toNat - 48)) 0

/-- Decimal digits of `n`, most significant first (`str(n)`);
`fuel = n + 1` always suffices (see `natDigits`). -/
def natDigitsGo : Nat → Nat → List Char
  | 0, _ => []
  | fuel + 1, n =>
    if n < 10 then [Char.ofNat (48 + n)]
    else natDigitsGo fuel (n / 10) ++ [Char.ofNat (48 + n % 10)]

def natDigits (n : Nat) : List Char := natDigitsGo (n + 1) n

/-- The numeric index contributed by one globbed file name: the name must
match `event*.json`, and `stem.replace('event', '')` must be all digits. -/
def eventFileNum (name : List Char) : Option Nat :=
  if (lc "event").isPrefixOf name ∧ pyEndsWith (lc ".json") name then
    let stem := name.take (name.length - 5)
    let d := replaceDrop (lc "event") stem
    if pyIsDigitStr d then some (digitsToNat d) else none
  else none

def folderNums {α : Type} (fs : EventFolder α) : List Nat :=
  fs.filterMap (fun e => eventFileNum e.1)

/-- `next_num = (existing[-1] + 1) if existing else 1` — the last element of
the sorted index list is its maximum. -/
def next_num {α : Type} (fs : EventFolder α) : Nat :=
  if (folderNums fs).isEmpty then 1 else (folderNums fs).foldl Nat.max 0 + 1

/-- `EventDataStore.store_event`: always writes the incoming record to the
fresh file `event{next_num}.json`; no dedup-key lookup and no merge. -/
def store_event {α : Type} (fs : EventFolder α) (e : α) : EventFolder α :=
  fs ++ [(lc "event" ++ natDigits (next_num fs) ++ lc ".json", e)]

/-- An event record as stored on disk: string fields only are relevant to
the store, which never inspects anything but `source_url` / `url`. -/
abbrev EventDict := List (List Char × List Char)

def dictGetS (d : EventDict) (k : List Char) : Option (List Char) :=
  (d.find? (fun p => decide (p.1 = k))).map (fun p => p.2)

/-- `EventDataStore.get_stored_urls`: the set of `source_url` (or `url`)
values over all persisted records (`x or y` picks the first truthy value). -/
def get_stored_urls (fs : EventFolder EventDict) : List (List Char) :=
  fs.foldl (fun acc f =>
    let url :=
      match dictGetS f.2 (lc "source_url") with
      | some u => if u ≠ [] then some u else dictGetS f.2 (lc "url")
      | none => dictGetS f.2 (lc "url")
    match url with
    | some u => if u ≠ [] ∧ ¬ u ∈ acc then acc ++ [u] else acc
    | none => acc) []

/-! Digit/parse round-trip lemmas -/

theorem isPrefixOf_append_self (l t : List Char) : l.isPrefixOf (l ++ t) = true := by
  simp [List.isPrefixOf_iff_prefix]

theorem digitChar_spec (k : Nat) (h : k < 10) :
    (Char.ofNat (48 + k)).isDigit = true ∧ (Char.ofNat (48 + k)).toNat = 48 + k := by
  interval_cases k <;> exact ⟨by decide, by decide⟩

theorem digitsToNat_append (xs : List Char) (c : Char) :
    digitsToNat (xs ++ [c]) = digitsToNat xs * 10 + (c.toNat - 48) := by
  simp [digitsToNat, List.foldl_append]

theorem natDigitsGo_spec :
    ∀ fuel n, n < fuel →
      (natDigitsGo fuel n).all Char.isDigit = true ∧
        natDigitsGo fuel n ≠ [] ∧ digitsToNat (natDigitsGo fuel n) = n := by
  intro fuel
  induction fuel with
  | zero => intro n h; omega
  | succ fuel ih =>
    intro n h
    by_cases hn : n < 10
    · obtain ⟨hdig, hval⟩ := digitChar_spec n hn
      refine ⟨by simp [natDigitsGo, hn, hdig], by simp [natDigitsGo, hn], ?_⟩
      simp [natDigitsGo, hn, digitsToNat, hval]
    · have hpos : 10 ≤ n := le_of_not_lt hn
      have hlt : n / 10 < fuel := by
        have h1 : n / 10 < n := Nat.div_lt_self (by omega) (by omega)
        omega
      obtain ⟨ha, hne, hv⟩ := ih (n / 10) hlt
      have hmod : n % 10 < 10 := Nat.mod_lt _ (by omega)
      obtain ⟨hdig, hval⟩ := digitChar_spec (n % 10) hmod
      refine ⟨?_, by simp [natDigitsGo, hn], ?_⟩
      · simp only [natDigitsGo, if_neg hn, List.all_append, List.all_cons, List.all_nil]
        simp [ha, hdig]
      · simp only [natDigitsGo, if_neg hn]
        rw [digitsToNat_append, hv, hval]
        omega

theorem natDigits_spec (n : Nat) :
    (natDigits n).all Char.isDigit = true ∧
      natDigits n ≠ [] ∧ digitsToNat (natDigits n) = n :=
  natDigitsGo_spec (n + 1) n (by omega)

theorem digit_not_e {c : Char} (hc : c.isDigit = true) : ('e' == c) = false := by
  by_contra h
  have h1 : ('e' == c) = true := by simpa using h
  have h2 : 'e' = c := by simpa using h1
  subst h2
  exact absurd hc (by decide)

theorem replaceDropGo_digits (d : List Char) (hd : d.all Char.isDigit = true) :
    ∀ fuel, replaceDropGo (lc "event") fuel d = d := by
  induction d with
  | nil => intro fuel; cases fuel <;> rfl
  | cons c rest ih =>
    intro fuel
    cases fuel with
    | zero => rfl
    | succ f =>
      simp only [List.all_cons, Bool.and_eq_true] at hd
      have hpre : (lc "event").isPrefixOf (c :: rest) = false := by
        simp only [lc, String.toList]
        show (('e' :: "vent".toList).isPrefixOf (c :: rest)) = false
        simp [List.isPrefixOf, digit_not_e hd.1]
      simp [replaceDropGo, hpre, ih hd.2]

theorem eventFileNum_mkName (n : Nat) :
    eventFileNum (lc "event" ++ natDigits n ++ lc ".json") = some n := by
  obtain ⟨hall, hne, hval⟩ := natDigits_spec n
  have hpre : (lc "event").isPrefixOf (lc "event" ++ natDigits n ++ lc ".json") = true := by
    rw [List.append_assoc]
    exact isPrefixOf_append_self _ _
  have hsuf : pyEndsWith (lc ".json") (lc "event" ++ natDigits n ++ lc ".json") = true := by
    unfold pyEndsWith
    rw [List.reverse_append, List.reverse_append]
    rw [← List.append_assoc]
    exact isPrefixOf_append_self _ _
  have hstem : (lc "event" ++ natDigits n ++ lc ".json").take
      ((lc "event" ++ natDigits n ++ lc ".json").length - 5) = lc "event" ++ natDigits n := by
    have hlen : (lc "event" ++ natDigits n ++ lc ".json").length - 5
        = (lc "event" ++ natDigits n).length := by
      simp [List.length_append, lc]
    rw [hlen]
    exact List.take_left _ _
  have hrepl : replaceDrop (lc "event") (lc "event" ++ natDigits n) = natDigits n := by
    unfold replaceDrop
    have hlenpos : ∃ m, (lc "event" ++ natDigits n).length = m + 1 := by
      refine ⟨(lc "event" ++ natDigits n).length - 1, ?_⟩
      have : 0 < (lc "event" ++ natDigits n).length := by simp [lc]
      omega
    obtain ⟨m, hm⟩ := hlenpos
    rw [hm]
    show replaceDropGo (lc "event") (m + 1) (lc "event" ++ natDigits n) = natDigits n
    have : lc "event" ++ natDigits n = 'e' :: (lc "vent" ++ natDigits n) := rfl
    rw [this]
    have hp : (lc "event").isPrefixOf ('e' :: (lc "vent" ++ natDigits n)) = true := by
      rw [← this]
      exact isPrefixOf_append_self _ _
    simp only [replaceDropGo, hp, if_true]
    have hdrop : ('e' :: (lc "vent" ++ natDigits n)).drop (lc "event").length = natDigits n := by
      rw [← this]
      exact List.drop_left _ _
    rw [hdrop]
    exact replaceDropGo_digits _ hall _
  unfold eventFileNum
  rw [if_pos ⟨hpre, hsuf⟩]
  simp only [hstem, hrepl]
  have hd : pyIsDigitStr (natDigits n) = true := by
    unfold pyIsDigitStr
    simp [hall, hne]
  rw [if_pos hd, hval]

theorem eventFileNum_mkName_assoc (n : Nat) :
    eventFileNum (lc "event" ++ (natDigits n ++ lc ".json")) = some n := by
  rw [← List.append_assoc]
  exact eventFileNum_mkName n

theorem folderNums_store {α : Type} (fs : EventFolder α) (e : α) :
    folderNums (store_event fs e) = folderNums fs ++ [next_num fs] := by
  show (fs ++ [(lc "event" ++ natDigits (next_num fs) ++ lc ".json", e)]).filterMap
      (fun e => eventFileNum e.1) = _
  rw [List.filterMap_append]
  simp [eventFileNum_mkName_assoc, folderNums]

theorem foldl_max_init_le (j : Nat) (l' : List Nat) : j ≤ List.foldl Nat.max j l' := by
  induction l' generalizing j with
  | nil => exact le_refl _
  | cons b tl' ih' => exact le_trans (Nat.le_max_left j b) (ih' _)

theorem mem_le_foldl_max (l : List Nat) (k : Nat) (hk : k ∈ l) :
    ∀ i, k ≤ l.foldl Nat.max i := by
  induction l with
  | nil => cases hk
  | cons a tl ih =>
    intro i
    rw [List.foldl_cons]
    rcases List.mem_cons.mp hk with h | h
    · rw [h]
      exact le_trans (Nat.le_max_right i a) (foldl_max_init_le _ tl)
    · exact ih h _

theorem folderNums_lt_next {α : Type} (fs : EventFolder α) :
    ∀ k ∈ folderNums fs, k < next_num fs := by
  intro k hk
  unfold next_num
  have hne : (folderNums fs).isEmpty = false := by
    cases h : folderNums fs with
    | nil => rw [h] at hk; cases hk
    | cons a tl => simp [h]
  rw [if_neg (by simp [hne])]
  have := mem_le_foldl_max (folderNums fs) k hk 0
  omega

/-- C1 (amended): `store_event` always appends a brand-new file: the folder
grows by exactly one entry, the new file is named `event{next_num}.json`
with `next_num` strictly greater than every numeric index already present,
that name is not already in the folder, and the stored record is the
incoming one unchanged — no dedup key is consulted and no merge happens. -/
theorem store_event_always_new_file {α : Type} (fs : EventFolder α) (e : α) :
    (store_event fs e).length = fs.length + 1 ∧
      store_event fs e = fs ++ [(lc "event" ++ natDigits (next_num fs) ++ lc ".json", e)] ∧
      folderNums (store_event fs e) = folderNums fs ++ [next_num fs] ∧
      (∀ k ∈ folderNums fs, k < next_num fs) ∧
      ¬ (lc "event" ++ natDigits (next_num fs) ++ lc ".json") ∈ fs.map Prod.fst := by
  refine ⟨by simp [store_event], rfl, folderNums_store fs e, folderNums_lt_next fs, ?_⟩
  intro hmem
  have hin : next_num fs ∈ folderNums fs := by
    rcases List.mem_map.mp hmem with ⟨p, hp, hname⟩
    have : eventFileNum p.1 = some (next_num fs) := by
      rw [hname, eventFileNum_mkName]
    exact List.mem_filterMap.mpr ⟨p, hp, this⟩
  exact absurd (folderNums_lt_next fs _ hin) (lt_irrefl _)

/-- C1 counterexample: storing two records that share the same `source_url`
produces two distinct persisted files — `store_event` computes no dedup key
from the URL and never merges, contradicting the claimed at-most-one-file-
per-key invariant. -/
theorem store_event_duplicates_same_url :
    store_event (store_event ([] : EventFolder EventDict)
        [(lc "source_url", lc "http://e.example/conf"), (lc "event_name", lc "E")])
        [(lc "source_url", lc "http://e.example/conf"), (lc "event_name", lc "E later")]
      = [(lc "event1.json",
          [(lc "source_url", lc "http://e.example/conf"), (lc "event_name", lc "E")]),
         (lc "event2.json",
          [(lc "source_url", lc "http://e.example/conf"), (lc "event_name", lc "E later")])] := by
  decide

/-! ## C9: persistence failure handling

Write faults are injected explicitly.  `_save_url_queue` runs
`open(self.QUEUE_FILE, 'w')` — mode `'w'` truncates any existing file —
and only then `json.dump`, so the on-disk state after a fault depends on
where the fault strikes: a fault raised by `open` itself leaves the old
file untouched, while a fault raised during the dump leaves a truncated
file holding only the entries serialized so far. -/

/-- `EventDataStore.store_event`'s `try/except`: the exception is logged and
then `raise` re-raises it to the caller. -/
def store_event_run {α : Type} (fs : EventFolder α) (e : α)
    (fault : Option (List Char)) : Except (List Char) (EventFolder α) :=
  match fault with
  | some msg => Except.error msg
  | none => Except.ok (store_event fs e)

/-- The on-disk queue snapshot file. -/
inductive SnapFile where
  | absent
  | complete (queue : List (List Char))
  | truncated (written : List (List Char))
deriving DecidableEq, Repr

/-- A fault injected into one snapshot write: none, raised by `open`
itself, or raised during `json.dump` after `k` queue entries have been
serialized. -/
inductive SnapFault where
  | ok
  | openFail (msg : List Char)
  | dumpFail (msg : List Char) (k : Nat)
deriving DecidableEq, Repr

/-- `EventFinder._save_url_queue`: the `except` clause only logs — the
method returns normally for every fault.  On success the file holds the new
snapshot; a fault at `open` leaves the old file; a fault during the dump
leaves a truncated file (the `open('w')` has already truncated it). -/
def save_url_queue_run (file : SnapFile) (queue : List (List Char))
    (fault : SnapFault) : Except (List Char) SnapFile :=
  match fault with
  | SnapFault.ok => Except.ok (SnapFile.complete queue)
  | SnapFault.openFail _ => Except.ok file
  | SnapFault.dumpFail _ k => Except.ok (SnapFile.truncated (queue.take k))

/-- C9 (amended): a record-store write fault is logged and re-raised to the
caller, but a frontier-queue snapshot write fault is logged and swallowed —
`_save_url_queue` returns normally for every fault, and no exception
escapes.  The snapshot itself is not protected: only a fault raised by
`open` leaves the previous file; a fault during the dump leaves a truncated
file, because `open(QUEUE_FILE, 'w')` truncates before `json.dump`
writes. -/
theorem persistence_fault_propagation {α : Type} (fs : EventFolder α) (e : α)
    (msg : List Char) (file : SnapFile) (queue : List (List Char)) (k : Nat) :
    store_event_run fs e (some msg) = Except.error msg ∧
      store_event_run fs e none = Except.ok (store_event fs e) ∧
      (∀ fault : SnapFault, ∃ f, save_url_queue_run file queue fault = Except.ok f) ∧
      save_url_queue_run file queue (SnapFault.openFail msg) = Except.ok file ∧
      save_url_queue_run file queue (SnapFault.dumpFail msg k)
        = Except.ok (SnapFile.truncated (queue.take k)) ∧
      save_url_queue_run file queue SnapFault.ok
        = Except.ok (SnapFile.complete queue) :=
  ⟨rfl, rfl,
    fun fault =>
      match fault with
      | SnapFault.ok => ⟨SnapFile.complete queue, rfl⟩
      | SnapFault.openFail _ => ⟨file, rfl⟩
      | SnapFault.dumpFail _ k => ⟨SnapFile.truncated (queue.take k), rfl⟩,
    rfl, rfl, rfl⟩

/-- C9 counterexample: a disk-full fault during the snapshot dump is not
re-raised — the save returns normally (and the previous snapshot is already
gone, destroyed by the truncating `open`), contradicting the claim that
every persisted-state write error is re-raised to the caller. -/
theorem save_url_queue_swallows_fault :
    save_url_queue_run (SnapFile.complete [lc "http://old"]) [lc "http://a"]
        (SnapFault.dumpFail (lc "disk full") 0)
      = Except.ok (SnapFile.truncated []) := rfl

/-! ## JSON values (for parsed model output)

Python dicts keep first-insertion position and update values on duplicate
keys, so parsed objects are association lists with unique keys and `get` is
first-match lookup. -/

inductive JVal where
  | jnull
  | jbool (b : Bool)
  | jnum (lexeme : List Char)
  | jstr (s : List Char)
  | jarr (elems : List JVal)
  | jobj (fields : List (List Char × JVal))

/-- Python truthiness of a JSON-decoded value.  A JSON number is falsy
exactly when its value is zero, i.e. when no nonzero digit occurs in its
mantissa (floats that underflow to zero are out of scope here). -/
def jTruthy : JVal → Bool
  | .jnull => false
  | .jbool b => b
  | .jnum s => (s.takeWhile (fun c => !(c = 'e' || c = 'E'))).any
      (fun c => '1' ≤ c && c ≤ '9')
  | .jstr s => !s.isEmpty
  | .jarr xs => !xs.isEmpty
  | .jobj kvs => !kvs.isEmpty

def jGet (d : List (List Char × JVal)) (k : List Char) : Option JVal :=
  (d.find? (fun p => decide (p.1 = k))).map (fun p => p.2)

/-- Python `key in dict`. -/
def jHasKey (d : List (List Char × JVal)) (k : List Char) : Bool :=
  d.any (fun p => decide (p.1 = k))

/-- `dict.get(k)` followed by Python truthiness (`if not event.get(f)`). -/
def jGetTruthy (d : List (List Char × JVal)) (k : List Char) : Bool :=
  match jGet d k with
  | some v => jTruthy v
  | none => false

/-! ## `utils.EventProcessor._has_meaningful_fields` (C7) -/

def event_specific_fields : List (List Char) :=
  [lc "dates", lc "location", lc "description", lc "topics", lc "registration"]

/-- `EventProcessor._has_meaningful_fields`: requires a truthy `event_name`;
rejects objects having all three keys `name`, `title`, `organization` with at
most five keys in total (the speaker-shape test checks key presence only);
and requires at least one truthy event-specific field. -/
def has_meaningful_fields (event : List (List Char × JVal)) : Bool :=
  if !jGetTruthy event (lc "event_name") then false
  else if (jHasKey event (lc "name") && jHasKey event (lc "title") &&
      jHasKey event (lc "organization")) && decide (event.length ≤ 5) then false
  else if !(event_specific_fields.any (fun f => jGetTruthy event f)) then false
  else true

/-- C7 (amended): the filter accepts exactly the objects with a non-empty
`event_name`, NOT matching the speaker shape (keys `name`, `title` and
`organization` all present while the object has at most 5 keys — regardless
of any event-specific field), and at least one non-empty field among dates,
location, description, topics, registration; in particular the claim's two
instances behave as stated. -/
theorem has_meaningful_fields_characterization :
    (∀ event : List (List Char × JVal),
        has_meaningful_fields event = true ↔
          (jGetTruthy event (lc "event_name") = true ∧
            ¬(jHasKey event (lc "name") = true ∧ jHasKey event (lc "title") = true ∧
              jHasKey event (lc "organization") = true ∧ event.length ≤ 5) ∧
            event_specific_fields.any (fun f => jGetTruthy event f) = true)) ∧
      has_meaningful_fields [(lc "event_name", JVal.jstr (lc "X")),
        (lc "title", JVal.jstr (lc "Speaker")),
        (lc "organization", JVal.jstr (lc "Y"))] = false ∧
      has_meaningful_fields [(lc "event_name", JVal.jstr (lc "X")),
        (lc "topics", JVal.jarr [JVal.jstr (lc "AI")])] = true := by
  refine ⟨?_, by decide, by decide⟩
  intro event
  unfold has_meaningful_fields
  split_ifs with h1 h2 h3
  · simp only [Bool.not_eq_true'] at h1
    simp [h1]
  · simp only [Bool.and_eq_true, decide_eq_true_eq] at h2
    simp only [Bool.false_eq_true, false_iff]
    intro hc
    exact hc.2.1 ⟨h2.1.1.1, h2.1.1.2, h2.1.2, h2.2⟩
  · simp only [Bool.not_eq_true'] at h3
    simp [h3]
  · simp only [true_iff]
    have hg : jGetTruthy event (lc "event_name") = true := by
      cases hx : jGetTruthy event (lc "event_name") with
      | false => exact absurd (by simp [hx]) h1
      | true => rfl
    have ha : event_specific_fields.any (fun f => jGetTruthy event f) = true := by
      cases hx : event_specific_fields.any (fun f => jGetTruthy event f) with
      | false => exact absurd (by simp [hx]) h3
      | true => rfl
    refine ⟨hg, ?_, ha⟩
    intro hc
    apply h2
    simp only [Bool.and_eq_true, decide_eq_true_eq]
    exact ⟨⟨⟨hc.1, hc.2.1⟩, hc.2.2.1⟩, hc.2.2.2⟩

/-- C7 counterexample: an object with a non-empty `event_name` AND a
non-empty event-specific field (`topics`) is still rejected when it also
carries the keys `name`, `title`, `organization` with at most five keys —
the claimed "accepts exactly when" biconditional fails. -/
theorem meaningfulness_rejects_speaker_shaped_event :
    has_meaningful_fields [(lc "event_name", JVal.jstr (lc "X")),
        (lc "name", JVal.jstr (lc "A")), (lc "title", JVal.jstr (lc "T")),
        (lc "organization", JVal.jstr (lc "O")),
        (lc "topics", JVal.jarr [JVal.jstr (lc "AI")])] = false ∧
      jGetTruthy [(lc "event_name", JVal.jstr (lc "X")),
        (lc "name", JVal.jstr (lc "A")), (lc "title", JVal.jstr (lc "T")),
        (lc "organization", JVal.jstr (lc "O")),
        (lc "topics", JVal.jarr [JVal.jstr (lc "AI")])] (lc "event_name") = true ∧
      jGetTruthy [(lc "event_name", JVal.jstr (lc "X")),
        (lc "name", JVal.jstr (lc "A")), (lc "title", JVal.jstr (lc "T")),
        (lc "organization", JVal.jstr (lc "O")),
        (lc "topics", JVal.jarr [JVal.jstr (lc "AI")])] (lc "topics") = true := by
  decide

/-! ## `json.loads` (strict JSON parsing)

A fueled recursive-descent parser; `none` models a raised
`JSONDecodeError`.  Every recursive call consumes at least one character,
so `fuel = length + 1` makes the parse exact. -/

def jsonWsChar (c : Char) : Bool := c = ' ' || c = '\t' || c = '\n' || c = '\r'

def skipJsonWs (s : List Char) : List Char := s.dropWhile jsonWsChar

def hexVal (c : Char) : Option Nat :=
  if '0' ≤ c ∧ c ≤ '9' then some (c.toNat - 48)
  else if 'a' ≤ c ∧ c ≤ 'f' then some (c.toNat - 87)
  else if 'A' ≤ c ∧ c ≤ 'F' then some (c.toNat - 55)
  else none

/-- JSON string body (after the opening quote) in strict mode: raw control
characters are rejected, escapes are decoded (`\uXXXX` below the surrogate
range).  Returns the decoded content and the text after the closing quote. -/
def parseJsonStr : List Char → Option (List Char × List Char)
  | [] => none
  | c :: rest =>
    if c = '"' then some ([], rest)
    else if c = '\\' then
      match rest with
      | [] => none
      | e :: rest2 =>
        if e = '"' then (parseJsonStr rest2).map (fun p => ('"' :: p.1, p.2))
        else if e = '\\' then (parseJsonStr rest2).map (fun p => ('\\' :: p.1, p.2))
        else if e = '/' then (parseJsonStr rest2).map (fun p => ('/' :: p.1, p.2))
        else if e = 'b' then (parseJsonStr rest2).map (fun p => ('\x08' :: p.1, p.2))
        else if e = 'f' then (parseJsonStr rest2).map (fun p => ('\x0c' :: p.1, p.2))
        else if e = 'n' then (parseJsonStr rest2).map (fun p => ('\n' :: p.1, p.2))
        else if e = 'r' then (parseJsonStr rest2).map (fun p => ('\r' :: p.1, p.2))
        else if e = 't' then (parseJsonStr rest2).map (fun p => ('\t' :: p.1, p.2))
        else if e = 'u' then
          match rest2 with
          | h1 :: h2 :: h3 :: h4 :: rest3 =>
            match hexVal h1, hexVal h2, hexVal h3, hexVal h4 with
            | some a, some b, some c3, some d =>
              (parseJsonStr rest3).map
                (fun p => (Char.ofNat (a * 4096 + b * 256 + c3 * 16 + d) :: p.1, p.2))
            | _, _, _, _ => none
          | _ => none
        else none
    else if c.toNat < 32 then none
    else (parseJsonStr rest).map (fun p => (c :: p.1, p.2))

/-- JSON number per the scanner regex
`(-?(?:0|[1-9]\d*))(\.\d+)?([eE][-+]?\d+)?`; returns the lexeme and rest. -/
def parseJsonNum (s : List Char) : Option (List Char × List Char) :=
  let intPart : List Char → Option (List Char × List Char) := fun t =>
    match t with
    | [] => none
    | c :: r =>
      if c = '0' then some ([c], r)
      else if c.isDigit then
        let ds := r.takeWhile Char.isDigit
        some (c :: ds, r.drop ds.length)
      else none
  let (sgn, s1) : List Char × List Char :=
    match s with
    | '-' :: r => (['-'], r)
    | _ => ([], s)
  match intPart s1 with
  | none => none
  | some (ip, s2) =>
    let (fp, s3) : List Char × List Char :=
      match s2 with
      | '.' :: r =>
        let ds := r.takeWhile Char.isDigit
        if ds.isEmpty then ([], s2) else ('.' :: ds, r.drop ds.length)
      | _ => ([], s2)
    let (ep, s4) : List Char × List Char :=
      match s3 with
      | e :: r =>
        if e = 'e' ∨ e = 'E' then
          match r with
          | sn :: r2 =>
            if sn = '+' ∨ sn = '-' then
              let ds := r2.takeWhile Char.isDigit
              if ds.isEmpty then ([], s3) else (e :: sn :: ds, r2.drop ds.length)
            else
              let ds := r.takeWhile Char.isDigit
              if ds.isEmpty then ([], s3) else (e :: ds, r.drop ds.length)
          | [] => ([], s3)
        else ([], s3)
      | [] => ([], s3)
    some (sgn ++ ip ++ fp ++ ep, s4)

/-- Python dict building while parsing an object: a duplicate key keeps its
original position but takes the new value. -/
def jobjInsert (acc : List (List Char × JVal)) (k : List Char) (v : JVal) :
    List (List Char × JVal) :=
  if acc.any (fun p => decide (p.1 = k)) then
    acc.map (fun p => if p.1 = k then (k, v) else p)
  else acc ++ [(k, v)]

mutual

def parseJsonVal : Nat → List Char → Option (JVal × List Char)
  | 0, _ => none
  | fuel + 1, s =>
    match skipJsonWs s with
    | [] => none
    | c :: rest =>
      if c = '{' then
        match skipJsonWs rest with
        | '}' :: r2 => some (.jobj [], r2)
        | r2 => parseJsonMembers fuel r2 []
      else if c = '[' then
        match skipJsonWs rest with
        | ']' :: r2 => some (.jarr [], r2)
        | r2 => parseJsonElems fuel r2 []
      else if c = '"' then
        (parseJsonStr rest).map (fun p => (JVal.jstr p.1, p.2))
      else if c = 't' then
        if (lc "rue").isPrefixOf rest then some (.jbool true, rest.drop 3) else none
      else if c = 'f' then
        if (lc "alse").isPrefixOf rest then some (.jbool false, rest.drop 4) else none
      else if c = 'n' then
        if (lc "ull").isPrefixOf rest then some (.jnull, rest.drop 3) else none
      else
        (parseJsonNum (c :: rest)).map (fun p => (JVal.jnum p.1, p.2))

def parseJsonMembers : Nat → List Char → List (List Char × JVal) →
    Option (JVal × List Char)
  | 0, _, _ => none
  | fuel + 1, s, acc =>
    match skipJsonWs s with
    | '"' :: r =>
      match parseJsonStr r with
      | none => none
      | some (key, r2) =>
        match skipJsonWs r2 with
        | ':' :: r3 =>
          match parseJsonVal fuel r3 with
          | none => none
          | some (v, r4) =>
            match skipJsonWs r4 with
            | ',' :: r5 => parseJsonMembers fuel r5 (jobjInsert acc key v)
            | '}' :: r5 => some (.jobj (jobjInsert acc key v), r5)
            | _ => none
        | _ => none
    | _ => none

def parseJsonElems : Nat → List Char → List JVal → Option (JVal × List Char)
  | 0, _, _ => none
  | fuel + 1, s, acc =>
    match parseJsonVal fuel s with
    | none => none
    | some (v, r) =>
      match skipJsonWs r with
      | ',' :: r2 => parseJsonElems fuel r2 (acc ++ [v])
      | ']' :: r2 => some (.jarr (acc ++ [v]), r2)
      | _ => none

end

/-- `json.loads`: one JSON value with surrounding whitespace allowed and
trailing data rejected. -/
def json_loads (s : List Char) : Option JVal :=
  match parseJsonVal (s.length + 1) s with
  | some (v, rest) => if skipJsonWs rest = [] then some v else none
  | none => none

theorem json_loads_sanity1 :
    json_loads (lc "\x7b\"a\": 1, \"b\": [true, null]\x7d")
      = some (JVal.jobj [(lc "a", JVal.jnum (lc "1")),
          (lc "b", JVal.jarr [JVal.jbool true, JVal.jnull])]) := rfl

theorem json_loads_sanity2 : json_loads (lc "\x7b\"a\": 1") = none := rfl

/-! ## `NavigationAgent.decide` response parsing (C8) -/

/-- The greedy regex `re.search(r'\{[\s\S]*\}', text)`: the match starts at
the leftmost `{` that is followed by a later `}` and runs through the last
`}` of the text. -/
def braceMatch (s : List Char) : Option (List Char) :=
  match s.findIdx? (fun c => decide (c = '{')),
      (s.reverse.findIdx? (fun c => decide (c = '}'))).map (fun k => s.length - 1 - k) with
  | some i, some j => if i < j then some ((s.take (j + 1)).drop i) else none
  | _, _ => none

def navDefault : List (List Char × JVal) :=
  [(lc "action", JVal.jstr (lc "extract")), (lc "links", JVal.jarr [])]

/-- The response-parsing tail of `NavigationAgent.decide`, as a function of
the oracle's final response text: locate a JSON object with the greedy brace
regex, `json.loads` it, apply the `link` → `links` backward-compatibility
shim, and on any failure fall back to `{"action": "extract", "links": []}`.
A successfully parsed object is returned as is — its `action` value is not
validated. -/
def nav_decide_parse (raw : List Char) : List (List Char × JVal) :=
  match braceMatch raw with
  | none => navDefault
  | some m =>
    match json_loads m with
    | some (.jobj d) =>
      if jHasKey d (lc "link") && !jHasKey d (lc "links") then
        match jGet d (lc "link") with
        | some lv => jobjInsert d (lc "links") (if jTruthy lv then .jarr [lv] else .jarr [])
        | none => d
      else d
    | some _ => navDefault
    | none => navDefault

/-- The `action` entry of a decision, when it is a string. -/
def actionOf (d : List (List Char × JVal)) : Option (List Char) :=
  match jGet d (lc "action") with
  | some (.jstr s) => some s
  | _ => none

/-- C8 (amended): when no JSON object can be located in the response, or the
located text fails to parse as JSON, `decide` returns exactly
`{action: "extract", links: []}`; the parsing itself is total (never
raises).  However a successfully parsed object is returned as is, without
validating its `action` field (see the counterexample). -/
theorem nav_decide_fails_closed (raw : List Char)
    (h : braceMatch raw = none ∨
      ∃ m, braceMatch raw = some m ∧ json_loads m = none) :
    nav_decide_parse raw = navDefault := by
  rcases h with h | ⟨m, hm, hj⟩
  · simp [nav_decide_parse, h]
  · simp [nav_decide_parse, hm, hj]

theorem nav_decide_fails_closed_witness :
    braceMatch (lc "I could not find anything useful on this page.") = none ∧
      nav_decide_parse (lc "I could not find anything useful on this page.")
        = navDefault :=
  ⟨by decide, nav_decide_fails_closed _ (Or.inl (by decide))⟩

/-- C8 counterexample: a parsed object whose `action` is neither `click` nor
`extract` is returned unchanged — the decision is `{"action": "wander",
"links": []}`, not the claimed `{action: "extract", links: []}` default. -/
theorem nav_decide_returns_unrecognized_action :
    actionOf (nav_decide_parse (lc "\x7b\"action\": \"wander\", \"links\": []\x7d"))
        = some (lc "wander") ∧
      nav_decide_parse (lc "\x7b\"action\": \"wander\", \"links\": []\x7d") ≠ navDefault := by
  have h1 : actionOf (nav_decide_parse (lc "\x7b\"action\": \"wander\", \"links\": []\x7d"))
      = some (lc "wander") := rfl
  refine ⟨h1, fun h => ?_⟩
  rw [h] at h1
  have h2 : actionOf navDefault = some (lc "extract") := rfl
  exact absurd (h1.symm.trans h2) (by decide)

/-! ## `EventProcessor._extract_json_blocks` (C4)

The two fixed regexes are compiled by hand:
`\[\s*\{[\s\S]*?\}\s*\]` (leftmost start, then shortest end) and
`\{\s*"event_name"[\s\S]*?\}(?=\s*[,\]])` (non-overlapping `finditer`,
scanning resumes after each match, the lookahead is not consumed). -/

def countChar (c : Char) (s : List Char) : Nat :=
  (s.filter (fun x => decide (x = c))).length

/-- Python `str.rstrip()`. -/
def pyRstrip (s : List Char) : List Char :=
  (s.reverse.dropWhile pyIsSpace).reverse

/-- `balance_braces`: counts are taken on the original string, the string is
right-stripped, then all missing `}` are appended before all missing `]`. -/
def balance_braces (s : List Char) : List Char :=
  let oc := countChar '{' s
  let cc := countChar '}' s
  let oa := countChar '[' s
  let ca := countChar ']' s
  let s2 := pyRstrip s
  let s3 := if cc < oc then s2 ++ List.replicate (oc - cc) '}' else s2
  if ca < oa then s3 ++ List.replicate (oa - ca) ']' else s3

/-- Python `str.rfind(pat)`: start index of the last occurrence. -/
def pyRfind (pat s : List Char) : Option Nat :=
  ((List.range (s.length + 1)).filter (fun i => pat.isPrefixOf (s.drop i))).getLast?

/-- `fix_truncated_array`: when `"speakers": [` occurs but `],` does not,
truncate after the last `},` and close with `]}`. -/
def fix_truncated_array (s : List Char) : List Char :=
  if listInfixOf (lc "\"speakers\": [") s && !(listInfixOf (lc "],") s) then
    match pyRfind (lc "\x7d,") s with
    | some i => s.take (i + 1) ++ lc "]\x7d"
    | none => s
  else s

/-- `\s*\]` after a `}` (all consumed characters must be whitespace, then an
immediate `]`); returns the number of characters consumed. -/
def closeArrTailGo : List Char → Nat → Option Nat
  | [], _ => none
  | c :: r, k =>
    if c = ']' then some (k + 1)
    else if pyIsSpace c then closeArrTailGo r (k + 1)
    else none

/-- Minimal-length match of `[\s\S]*?\}\s*\]` on the characters after the
`{`: the first `}` whose tail matches `\s*\]`, with backtracking past any
`}` whose tail does not.  Returns the consumed length through the `]`. -/
def arrEndScan : List Char → Option Nat
  | [] => none
  | c :: r =>
    if c = '}' then
      match closeArrTailGo r 0 with
      | some k => some (k + 1)
      | none => (arrEndScan r).map (· + 1)
    else (arrEndScan r).map (· + 1)

/-- `\s*\{` : only whitespace may separate the `[` from the `{`; returns the
number of whitespace characters. -/
def wsThenBrace : List Char → Option Nat
  | [] => none
  | c :: r =>
    if c = '{' then some 0
    else if pyIsSpace c then (wsThenBrace r).map (· + 1)
    else none

/-- `re.search(r'\[\s*\{[\s\S]*?\}\s*\]', text)`. -/
def findArrayMatch : List Char → Option (List Char)
  | [] => none
  | c :: r =>
    if c = '[' then
      match wsThenBrace r with
      | some k =>
        match arrEndScan (r.drop (k + 1)) with
        | some m => some (c :: r.take (k + 1 + m))
        | none => findArrayMatch r
      | none => findArrayMatch r
    else findArrayMatch r

/-- `\s*` then a literal (whose first character is never whitespace);
returns the consumed length including the literal. -/
def wsThenLit (lit : List Char) : List Char → Option Nat
  | [] => none
  | c :: r =>
    if lit.isPrefixOf (c :: r) then some lit.length
    else if pyIsSpace c then (wsThenLit lit r).map (· + 1)
    else none

/-- The lookahead `(?=\s*[,\]])`. -/
def lookaheadOk : List Char → Bool
  | [] => false
  | c :: r =>
    if c = ',' || c = ']' then true
    else if pyIsSpace c then lookaheadOk r
    else false

/-- Minimal-length `[\s\S]*?\}` whose `}` satisfies the lookahead; returns
the consumed length through the `}`. -/
def objEndScan : List Char → Option Nat
  | [] => none
  | c :: r =>
    if c = '}' then
      if lookaheadOk r then some 1 else (objEndScan r).map (· + 1)
    else (objEndScan r).map (· + 1)

/-- `re.finditer(r'\{\s*"event_name"[\s\S]*?\}(?=\s*[,\]])', text)`.  One
fuel unit per character of progress; `fuel = length + 1` is exact. -/
def findObjMatchesGo : Nat → List Char → List (List Char)
  | 0, _ => []
  | _ + 1, [] => []
  | fuel + 1, c :: r =>
    if c = '{' then
      match wsThenLit (lc "\"event_name\"") r with
      | some k =>
        match objEndScan (r.drop k) with
        | some m => ('{' :: r.take (k + m)) :: findObjMatchesGo fuel (r.drop (k + m))
        | none => findObjMatchesGo fuel r
      | none => findObjMatchesGo fuel r
    else findObjMatchesGo fuel r

def findObjMatches (s : List Char) : List (List Char) :=
  findObjMatchesGo (s.length + 1) s

/-- The object-fallback half of `_extract_json_blocks`: repair and validate
each object match, keep the survivors, and wrap multiple objects into one
synthetic array string. -/
def objFallback (text : List Char) : List (List Char) :=
  let objs := (findObjMatches text).filterMap (fun m =>
    let fixed := balance_braces (fix_truncated_array m)
    if (json_loads fixed).isSome then some fixed else none)
  if objs.isEmpty then []
  else if 1 < objs.length then [lc "[" ++ List.intercalate (lc ",") objs ++ lc "]"]
  else objs

/-- `EventProcessor._extract_json_blocks`. -/
def extract_json_blocks (text : List Char) : List (List Char) :=
  match findArrayMatch text with
  | some js =>
    if (json_loads js).isSome then [js]
    else
      let fixed := balance_braces (fix_truncated_array js)
      if (json_loads fixed).isSome then [fixed]
      else objFallback text
  | none => objFallback text

/-- The embedding recovers a well-formed array unchanged. -/
theorem extract_json_blocks_valid_array :
    extract_json_blocks (lc "[\x7b\"event_name\": \"X\"\x7d]")
      = [lc "[\x7b\"event_name\": \"X\"\x7d]"] := by decide

/-- C4: on the canonical input — a JSON array truncated mid-way through its
`speakers` list — the extraction yields NO record at all: the object regex
stops at the first speaker's `}`, `fix_truncated_array` finds no `},` inside
that match, and `balance_braces` appends the missing `}` before the missing
`]`, producing `... [{"name": "A"}}]`, which is invalid JSON. -/
theorem extract_json_blocks_drops_truncated_speakers :
    extract_json_blocks
        (lc "[\x7b\"event_name\": \"X\", \"location\": \"SF\", \"speakers\": [\x7b\"name\": \"A\"\x7d, \x7b\"name\": \"B\"\x7d, \x7b\"na")
      = [] := by decide

/-! ## `difflib.SequenceMatcher(None, a, b).ratio()`

Ported from CPython difflib with `isjunk=None`: `b2j` holds the ascending
positions of each element of `b`, with the autojunk rule (for `len(b) >=
200`, elements occurring more than `len(b)//100 + 1` times are dropped from
`b2j`; they are "popular", not junk, so the equality-extension loops still
apply to them, and with no junk function the junk-extension loops are
no-ops).  `ratio` is `2*M/T`; the source compares it with the float literal
`0.8`, modelled here by the exact rational comparison `10*M < 4*T` (the two
can only disagree when `2*M/T` lies within one float ulp of `0.8`, which no
short string pair attains). -/

def b2jPositions (b : List Char) (c : Char) : List Nat :=
  let all := (List.range b.length).filter (fun j => b.getD j ' ' = c ∧ j < b.length)
  if 200 ≤ b.length ∧ b.length / 100 + 1 < all.length then [] else all

/-- The dynamic-programming pass of `find_longest_match` over
`i ∈ [alo, ahi)`: `j2len` maps `j` to the length of the longest match ending
at `(i, j)`; `best` is `(besti, bestj, bestsize)`, ties keeping the first
maximum found. -/
def flmDP (a b : List Char) (alo ahi blo bhi : Nat) : Nat × Nat × Nat :=
  let step := fun (st : (Nat → Nat) × (Nat × Nat × Nat)) (i : Nat) =>
    let js := ((b2jPositions b (a.getD i ' ')).takeWhile (fun j => j < bhi)).filter
      (fun j => blo ≤ j)
    let inner := js.foldl (fun (st2 : (Nat → Nat) × (Nat × Nat × Nat)) j =>
      let k := (if j = 0 then 0 else st.1 (j - 1)) + 1
      let newmap := fun x => if x = j then k else st2.1 x
      let best := st2.2
      (newmap, if best.2.2 < k then (i + 1 - k, j + 1 - k, k) else best))
      ((fun _ => 0), st.2)
    inner
  ((List.range' alo (ahi - alo)).foldl step ((fun _ => 0), (alo, blo, 0))).2

/-- The left equality-extension loop of `find_longest_match` (empty junk
set): one fuel unit per extension, `fuel = besti` suffices. -/
def flmExtendLeft (a b : List Char) (alo blo : Nat) :
    Nat → Nat × Nat × Nat → Nat × Nat × Nat
  | 0, st => st
  | fuel + 1, (bi, bj, bs) =>
    if alo < bi ∧ blo < bj ∧ a.getD (bi - 1) ' ' = b.getD (bj - 1) ' ' then
      flmExtendLeft a b alo blo fuel (bi - 1, bj - 1, bs + 1)
    else (bi, bj, bs)

/-- The right equality-extension loop; `fuel = ahi` suffices. -/
def flmExtendRight (a b : List Char) (ahi bhi : Nat) :
    Nat → Nat × Nat × Nat → Nat × Nat × Nat
  | 0, st => st
  | fuel + 1, (bi, bj, bs) =>
    if bi + bs < ahi ∧ bj + bs < bhi ∧ a.getD (bi + bs) ' ' = b.getD (bj + bs) ' ' then
      flmExtendRight a b ahi bhi fuel (bi, bj, bs + 1)
    else (bi, bj, bs)

def find_longest_match (a b : List Char) (alo ahi blo bhi : Nat) : Nat × Nat × Nat :=
  let dp := flmDP a b alo ahi blo bhi
  let e1 := flmExtendLeft a b alo blo dp.1 dp
  flmExtendRight a b ahi bhi ahi e1

/-- Total matched size over `get_matching_blocks`' divide-and-conquer queue.
Sorting and coalescing adjacent blocks do not change the sum, so only the
sum is computed.  Each queue entry with a nonzero match consumes at least
one matched position, so `fuel = len(a)+len(b)+2` suffices. -/
def mblocksSumGo (a b : List Char) : Nat → List (Nat × Nat × Nat × Nat) → Nat
  | 0, _ => 0
  | _ + 1, [] => 0
  | fuel + 1, (alo, ahi, blo, bhi) :: rest =>
    let r := find_longest_match a b alo ahi blo bhi
    let i := r.1
    let j := r.2.1
    let k := r.2.2
    if k = 0 then mblocksSumGo a b fuel rest
    else
      let q1 := if alo < i ∧ blo < j then [(alo, i, blo, j)] else []
      let q2 := if i + k < ahi ∧ j + k < bhi then [(i + k, ahi, j + k, bhi)] else []
      k + mblocksSumGo a b fuel (q1 ++ q2 ++ rest)

def matchesTotal (a b : List Char) : Nat :=
  mblocksSumGo a b (a.length + b.length + 2) [(0, a.length, 0, b.length)]

/-- `similarity < 0.8` in `merge_event_data`, via the exact rational
comparison (`_calculate_ratio` returns `1.0` on two empty sequences). -/
def simLt08 (a b : List Char) : Bool :=
  let t := a.length + b.length
  if t = 0 then false else decide (10 * matchesTotal a b < 4 * t)

/-! ## `functions.merge_event_data` (C3)

The source iterates over `new_event.items()` and handles every key
independently on a copy of `existing_event`, so the merge is embedded
field-wise over a fixed record schema.  `σ` is the domain of speaker-list
entries (speaker dicts, compared by Python structural equality).
`organizer` and `source_url` are keys with no dedicated branch: when both
sides are truthy nothing is written, so the existing value silently wins.
`last_updated` is stamped with the merge time, passed explicitly. -/

structure PyEvent (σ : Type) where
  event_name : Option (List Char)
  description : Option (List Char)
  dates : Option (List Char)
  location : Option (List Char)
  registration_url : Option (List Char)
  organizer : Option (List Char)
  source_url : Option (List Char)
  speakers : List σ
  topics : List (List Char)
  prices : List (List Char)
  last_updated : Option (List Char)

/-- Python truthiness of an optional string field (`None` and `''` falsy). -/
def pyTruthyS : Option (List Char) → Bool
  | some s => !s.isEmpty
  | none => false

/-- Branch for `speakers`/`topics`/`prices`: skip falsy incoming, replace
falsy existing, else `existing + [x for x in new if x not in existing]`. -/
def mergeListField {α : Type} [DecidableEq α] (ex nw : List α) : List α :=
  if nw.isEmpty then ex
  else if ex.isEmpty then nw
  else ex ++ nw.filter (fun x => ¬ x ∈ ex)

/-- Branch for `description`: keep the strictly longer one. -/
def mergeDescription : Option (List Char) → Option (List Char) → Option (List Char)
  | ex, none => ex
  | none, some n => if n.isEmpty then none else some n
  | some e, some n =>
    if n.isEmpty then some e
    else if e.isEmpty then some n
    else if e.length < n.length then some n else some e

/-- Branch for `dates`/`location`: concatenate distinct readings. -/
def mergeDatesLoc : Option (List Char) → Option (List Char) → Option (List Char)
  | ex, none => ex
  | none, some n => if n.isEmpty then none else some n
  | some e, some n =>
    if n.isEmpty then some e
    else if e.isEmpty then some n
    else if n ≠ e then some (e ++ lc "; " ++ n) else some e

/-- Branch for `event_name`: similarity below 0.8 concatenates with `" / "`,
otherwise the existing name is kept. -/
def mergeEventName : Option (List Char) → Option (List Char) → Option (List Char)
  | ex, none => ex
  | none, some n => if n.isEmpty then none else some n
  | some e, some n =>
    if n.isEmpty then some e
    else if e.isEmpty then some n
    else if simLt08 e n then some (e ++ lc " / " ++ n) else some e

/-- Branch for `registration_url`: the incoming value always wins when
truthy. -/
def mergeRegUrl : Option (List Char) → Option (List Char) → Option (List Char)
  | ex, none => ex
  | none, some n => if n.isEmpty then none else some n
  | some e, some n => if n.isEmpty then some e else some n

/-- Keys without a dedicated branch (`organizer`, `source_url`, ...): the
incoming value only fills a falsy existing field. -/
def mergeNoRule : Option (List Char) → Option (List Char) → Option (List Char)
  | ex, none => ex
  | none, some n => if n.isEmpty then none else some n
  | some e, some n =>
    if n.isEmpty then some e
    else if e.isEmpty then some n else some e

def merge_event_data {σ : Type} [DecidableEq σ] (ex nw : PyEvent σ) (now : List Char) :
    PyEvent σ :=
  { event_name := mergeEventName ex.event_name nw.event_name
    description := mergeDescription ex.description nw.description
    dates := mergeDatesLoc ex.dates nw.dates
    location := mergeDatesLoc ex.location nw.location
    registration_url := mergeRegUrl ex.registration_url nw.registration_url
    organizer := mergeNoRule ex.organizer nw.organizer
    source_url := mergeNoRule ex.source_url nw.source_url
    speakers := mergeListField ex.speakers nw.speakers
    topics := mergeListField ex.topics nw.topics
    prices := mergeListField ex.prices nw.prices
    last_updated := some now }

/-! C3 helper lemmas: per-field behaviour of the merge branches -/

def listUnion {α : Type} [DecidableEq α] (ex nw : List α) : List α :=
  ex ++ nw.filter (fun x => ¬ x ∈ ex)

theorem mergeListField_eq_union {α : Type} [DecidableEq α] (ex nw : List α) :
    mergeListField ex nw = listUnion ex nw := by
  unfold mergeListField listUnion
  by_cases hn : nw.isEmpty
  · rw [List.isEmpty_iff] at hn
    subst hn
    simp
  · by_cases he : ex.isEmpty
    · rw [List.isEmpty_iff] at he
      subst he
      simp [hn]
    · simp [hn, he]

theorem mem_listUnion {α : Type} [DecidableEq α] (x : α) (ex nw : List α) :
    x ∈ listUnion ex nw ↔ x ∈ ex ∨ x ∈ nw := by
  simp only [listUnion, List.mem_append, List.mem_filter, decide_eq_true_eq]
  constructor
  · rintro (h | ⟨h, _⟩)
    · exact Or.inl h
    · exact Or.inr h
  · rintro (h | h)
    · exact Or.inl h
    · by_cases hx : x ∈ ex
      · exact Or.inl hx
      · exact Or.inr ⟨h, by simpa using hx⟩

theorem nodup_listUnion {α : Type} [DecidableEq α] {ex nw : List α}
    (h1 : ex.Nodup) (h2 : nw.Nodup) : (listUnion ex nw).Nodup := by
  unfold listUnion
  refine List.Nodup.append h1 (h2.filter _) ?_
  intro x hx hxf
  have := (List.mem_filter.mp hxf).2
  simp only [decide_eq_true_eq] at this
  exact this hx

theorem mergeDescription_cases (ex nw : Option (List Char)) :
    mergeDescription ex nw = ex ∨ mergeDescription ex nw = nw := by
  rcases ex with _ | e <;> rcases nw with _ | n
  · exact Or.inl rfl
  · simp only [mergeDescription]
    by_cases hn : n.isEmpty
    · rw [if_pos hn]
      exact Or.inl rfl
    · rw [if_neg hn]
      exact Or.inr rfl
  · exact Or.inl rfl
  · simp only [mergeDescription]
    by_cases hn : n.isEmpty
    · rw [if_pos hn]
      exact Or.inl rfl
    · rw [if_neg hn]
      by_cases he : e.isEmpty
      · rw [if_pos he]
        exact Or.inr rfl
      · rw [if_neg he]
        by_cases hl : e.length < n.length
        · rw [if_pos hl]
          exact Or.inr rfl
        · rw [if_neg hl]
          exact Or.inl rfl

theorem mergeDescription_ge_ex {ex : Option (List Char)} (nw : Option (List Char))
    {v : List Char} (h : ex = some v) (hv : v ≠ []) :
    ∃ w, mergeDescription ex nw = some w ∧ v.length ≤ w.length ∧ w ≠ [] := by
  subst h
  have hvE : ¬ v.isEmpty = true := by simpa using hv
  rcases nw with _ | n
  · exact ⟨v, rfl, le_refl _, hv⟩
  · simp only [mergeDescription]
    by_cases hn : n.isEmpty
    · rw [if_pos hn]
      exact ⟨v, rfl, le_refl _, hv⟩
    · rw [if_neg hn, if_neg hvE]
      by_cases hl : v.length < n.length
      · rw [if_pos hl]
        exact ⟨n, rfl, le_of_lt hl, by simpa using hn⟩
      · rw [if_neg hl]
        exact ⟨v, rfl, le_refl _, hv⟩

theorem mergeDescription_ge_nw (ex : Option (List Char)) {nw : Option (List Char)}
    {v : List Char} (h : nw = some v) (hv : v ≠ []) :
    ∃ w, mergeDescription ex nw = some w ∧ v.length ≤ w.length ∧ w ≠ [] := by
  subst h
  have hvE : ¬ v.isEmpty = true := by simpa using hv
  rcases ex with _ | e
  · simp only [mergeDescription]
    rw [if_neg hvE]
    exact ⟨v, rfl, le_refl _, hv⟩
  · simp only [mergeDescription]
    rw [if_neg hvE]
    by_cases he : e.isEmpty
    · rw [if_pos he]
      exact ⟨v, rfl, le_refl _, hv⟩
    · rw [if_neg he]
      by_cases hl : e.length < v.length
      · rw [if_pos hl]
        exact ⟨v, rfl, le_refl _, hv⟩
      · rw [if_neg hl]
        exact ⟨e, rfl, le_of_not_lt hl, by simpa using he⟩

theorem mergeDatesLoc_contains_ex {ex nw : Option (List Char)} {v : List Char}
    (h : ∃ s, ex = some s ∧ v <:+: s) (hv : v ≠ []) :
    ∃ s, mergeDatesLoc ex nw = some s ∧ v <:+: s := by
  obtain ⟨s, hs, hinf⟩ := h
  subst hs
  have hsne : s ≠ [] := by
    intro h0
    subst h0
    exact hv (List.infix_nil.mp hinf)
  have hsE : ¬ s.isEmpty = true := by simpa using hsne
  rcases nw with _ | n
  · exact ⟨s, rfl, hinf⟩
  · simp only [mergeDatesLoc]
    by_cases hn : n.isEmpty
    · rw [if_pos hn]
      exact ⟨s, rfl, hinf⟩
    · rw [if_neg hn, if_neg hsE]
      by_cases hne : n ≠ s
      · rw [if_pos hne]
        refine ⟨s ++ lc "; " ++ n, rfl, hinf.trans ?_⟩
        rw [List.append_assoc]
        exact (List.prefix_append s _).isInfix
      · rw [if_neg hne]
        exact ⟨s, rfl, hinf⟩

theorem mergeDatesLoc_contains_nw {ex nw : Option (List Char)} {v : List Char}
    (h : nw = some v) (hv : v ≠ []) :
    ∃ s, mergeDatesLoc ex nw = some s ∧ v <:+: s := by
  subst h
  have hvE : ¬ v.isEmpty = true := by simpa using hv
  rcases ex with _ | e
  · simp only [mergeDatesLoc]
    rw [if_neg hvE]
    exact ⟨v, rfl, List.infix_refl v⟩
  · simp only [mergeDatesLoc]
    rw [if_neg hvE]
    by_cases he : e.isEmpty
    · rw [if_pos he]
      exact ⟨v, rfl, List.infix_refl v⟩
    · rw [if_neg he]
      by_cases hne : v ≠ e
      · rw [if_pos hne]
        exact ⟨e ++ lc "; " ++ v, rfl, (List.suffix_append _ v).isInfix⟩
      · rw [if_neg hne]
        have hve : v = e := not_not.mp hne
        subst hve
        exact ⟨v, rfl, List.infix_refl v⟩

theorem mergeEventName_prefix_kept {ex nw : Option (List Char)} {v : List Char}
    (h : ∃ s, ex = some s ∧ v <+: s) (hv : v ≠ []) :
    ∃ s, mergeEventName ex nw = some s ∧ v <+: s := by
  obtain ⟨s, hs, hpre⟩ := h
  subst hs
  have hsne : s ≠ [] := by
    intro h0
    subst h0
    exact hv (List.prefix_nil.mp hpre)
  have hsE : ¬ s.isEmpty = true := by simpa using hsne
  rcases nw with _ | n
  · exact ⟨s, rfl, hpre⟩
  · simp only [mergeEventName]
    by_cases hn : n.isEmpty
    · rw [if_pos hn]
      exact ⟨s, rfl, hpre⟩
    · rw [if_neg hn, if_neg hsE]
      by_cases hsim : simLt08 s n
      · rw [if_pos hsim]
        refine ⟨s ++ lc " / " ++ n, rfl, hpre.trans ?_⟩
        rw [List.append_assoc]
        exact List.prefix_append s _
      · rw [if_neg hsim]
        exact ⟨s, rfl, hpre⟩

theorem mergeEventName_contains_mono {ex : Option (List Char)} (nw : Option (List Char))
    {v : List Char} (h : ∃ s, ex = some s ∧ v <:+: s) (hv : v ≠ []) :
    ∃ s, mergeEventName ex nw = some s ∧ v <:+: s := by
  obtain ⟨s, hs, hinf⟩ := h
  subst hs
  have hsne : s ≠ [] := by
    intro h0
    subst h0
    exact hv (List.infix_nil.mp hinf)
  have hsE : ¬ s.isEmpty = true := by simpa using hsne
  rcases nw with _ | n
  · exact ⟨s, rfl, hinf⟩
  · simp only [mergeEventName]
    by_cases hn : n.isEmpty
    · rw [if_pos hn]
      exact ⟨s, rfl, hinf⟩
    · rw [if_neg hn, if_neg hsE]
      by_cases hsim : simLt08 s n
      · rw [if_pos hsim]
        refine ⟨s ++ lc " / " ++ n, rfl, hinf.trans ?_⟩
        rw [List.append_assoc]
        exact (List.prefix_append s _).isInfix
      · rw [if_neg hsim]
        exact ⟨s, rfl, hinf⟩

theorem mergeEventName_incoming (ex : Option (List Char)) {v : List Char}
    (hv : v ≠ []) :
    (∃ s, mergeEventName ex (some v) = some s ∧ v <:+: s) ∨
      (∃ e, ex = some e ∧ simLt08 e v = false ∧ mergeEventName ex (some v) = ex) := by
  have hvE : ¬ v.isEmpty = true := by simpa using hv
  rcases ex with _ | e
  · simp only [mergeEventName]
    rw [if_neg hvE]
    exact Or.inl ⟨v, rfl, List.infix_refl v⟩
  · simp only [mergeEventName]
    rw [if_neg hvE]
    by_cases he : e.isEmpty
    · rw [if_pos he]
      exact Or.inl ⟨v, rfl, List.infix_refl v⟩
    · rw [if_neg he]
      by_cases hsim : simLt08 e v
      · rw [if_pos hsim]
        exact Or.inl ⟨e ++ lc " / " ++ v, rfl, (List.suffix_append _ v).isInfix⟩
      · rw [if_neg hsim]
        exact Or.inr ⟨e, rfl, by simpa using hsim, rfl⟩

/-- Modelled from the amended claim's words: `registration_url` keeps the
most recent truthy value. -/
def regLast (ex nw : Option (List Char)) : Option (List Char) :=
  if pyTruthyS nw then nw else ex

/-- Modelled from the amended claim's words: a field with no merge rule
keeps the first truthy value. -/
def keepFirst (ex nw : Option (List Char)) : Option (List Char) :=
  if pyTruthyS nw then (if pyTruthyS ex then ex else nw) else ex

theorem mergeRegUrl_eq (ex nw : Option (List Char)) :
    mergeRegUrl ex nw = regLast ex nw := by
  rcases ex with _ | e <;> rcases nw with _ | n
  · rfl
  · by_cases hn : n.isEmpty
    · simp [mergeRegUrl, regLast, pyTruthyS, hn]
    · simp [mergeRegUrl, regLast, pyTruthyS, hn]
  · rfl
  · by_cases hn : n.isEmpty
    · simp [mergeRegUrl, regLast, pyTruthyS, hn]
    · simp [mergeRegUrl, regLast, pyTruthyS, hn]

theorem mergeNoRule_eq (ex nw : Option (List Char)) :
    mergeNoRule ex nw = keepFirst ex nw := by
  rcases ex with _ | e <;> rcases nw with _ | n
  · rfl
  · by_cases hn : n.isEmpty
    · simp [mergeNoRule, keepFirst, pyTruthyS, hn]
    · simp [mergeNoRule, keepFirst, pyTruthyS, hn]
  · rfl
  · by_cases hn : n.isEmpty
    · simp [mergeNoRule, keepFirst, pyTruthyS, hn]
    · by_cases he : e.isEmpty
      · simp [mergeNoRule, keepFirst, pyTruthyS, hn, he]
      · simp [mergeNoRule, keepFirst, pyTruthyS, hn, he]

/-- C3 (amended): the value of `merge(merge(A,B),C)` field by field.  List
fields (`topics`, `speakers`, `prices`) are left-to-right unions — every
input element appears, order is existing-then-novel-incoming, and each
element appears exactly once provided the input lists are duplicate-free
(duplicates already inside one input survive).  Every non-empty
`description` is dominated in length by the kept description, which is one
of the inputs'.  Every non-empty `dates`/`location` value survives as a
contiguous part of the final value.  A's non-empty `event_name` is always a
prefix of the final name; B's and C's survive as a contiguous part unless
dropped by the ≥ 0.8-similarity rule at their merge step.
`registration_url` keeps the LAST non-empty value (earlier ones are
dropped), fields without a dedicated rule (`organizer`, `source_url`) keep
the FIRST non-empty value (later ones are dropped), and `last_updated` is
stamped with the final merge time. -/
theorem merge_event_data_composition {σ : Type} [DecidableEq σ]
    (A B C : PyEvent σ) (t1 t2 : List Char)
    (hA : A.topics.Nodup ∧ A.speakers.Nodup ∧ A.prices.Nodup)
    (hB : B.topics.Nodup ∧ B.speakers.Nodup ∧ B.prices.Nodup)
    (hC : C.topics.Nodup ∧ C.speakers.Nodup ∧ C.prices.Nodup) :
    (merge_event_data (merge_event_data A B t1) C t2).topics
        = listUnion (listUnion A.topics B.topics) C.topics ∧
    (∀ x, x ∈ (merge_event_data (merge_event_data A B t1) C t2).topics ↔
        (x ∈ A.topics ∨ x ∈ B.topics ∨ x ∈ C.topics)) ∧
    (merge_event_data (merge_event_data A B t1) C t2).topics.Nodup ∧
    (merge_event_data (merge_event_data A B t1) C t2).speakers
        = listUnion (listUnion A.speakers B.speakers) C.speakers ∧
    (∀ x, x ∈ (merge_event_data (merge_event_data A B t1) C t2).speakers ↔
        (x ∈ A.speakers ∨ x ∈ B.speakers ∨ x ∈ C.speakers)) ∧
    (merge_event_data (merge_event_data A B t1) C t2).speakers.Nodup ∧
    (merge_event_data (merge_event_data A B t1) C t2).prices
        = listUnion (listUnion A.prices B.prices) C.prices ∧
    (∀ x, x ∈ (merge_event_data (merge_event_data A B t1) C t2).prices ↔
        (x ∈ A.prices ∨ x ∈ B.prices ∨ x ∈ C.prices)) ∧
    (merge_event_data (merge_event_data A B t1) C t2).prices.Nodup ∧
    ((merge_event_data (merge_event_data A B t1) C t2).description = A.description ∨
      (merge_event_data (merge_event_data A B t1) C t2).description = B.description ∨
      (merge_event_data (merge_event_data A B t1) C t2).description = C.description) ∧
    (∀ v, v ≠ [] →
      (A.description = some v ∨ B.description = some v ∨ C.description = some v) →
      ∃ w, (merge_event_data (merge_event_data A B t1) C t2).description = some w ∧
        v.length ≤ w.length) ∧
    (∀ v, v ≠ [] → (A.dates = some v ∨ B.dates = some v ∨ C.dates = some v) →
      ∃ s, (merge_event_data (merge_event_data A B t1) C t2).dates = some s ∧
        v <:+: s) ∧
    (∀ v, v ≠ [] →
      (A.location = some v ∨ B.location = some v ∨ C.location = some v) →
      ∃ s, (merge_event_data (merge_event_data A B t1) C t2).location = some s ∧
        v <:+: s) ∧
    (∀ v, v ≠ [] → A.event_name = some v →
      ∃ s, (merge_event_data (merge_event_data A B t1) C t2).event_name = some s ∧
        v <+: s) ∧
    (∀ v, v ≠ [] → B.event_name = some v →
      (∃ s, (merge_event_data (merge_event_data A B t1) C t2).event_name = some s ∧
          v <:+: s) ∨
        (∃ e, A.event_name = some e ∧ simLt08 e v = false ∧
          (merge_event_data A B t1).event_name = A.event_name)) ∧
    (∀ v, v ≠ [] → C.event_name = some v →
      (∃ s, (merge_event_data (merge_event_data A B t1) C t2).event_name = some s ∧
          v <:+: s) ∨
        (∃ e, (merge_event_data A B t1).event_name = some e ∧ simLt08 e v = false ∧
          (merge_event_data (merge_event_data A B t1) C t2).event_name
            = (merge_event_data A B t1).event_name)) ∧
    (merge_event_data (merge_event_data A B t1) C t2).registration_url
        = regLast (regLast A.registration_url B.registration_url)
            C.registration_url ∧
    (merge_event_data (merge_event_data A B t1) C t2).organizer
        = keepFirst (keepFirst A.organizer B.organizer) C.organizer ∧
    (merge_event_data (merge_event_data A B t1) C t2).source_url
        = keepFirst (keepFirst A.source_url B.source_url) C.source_url ∧
    (merge_event_data (merge_event_data A B t1) C t2).last_updated = some t2 := by
  have ht : (merge_event_data (merge_event_data A B t1) C t2).topics
      = listUnion (listUnion A.topics B.topics) C.topics := by
    show mergeListField (mergeListField A.topics B.topics) C.topics = _
    rw [mergeListField_eq_union, mergeListField_eq_union]
  have hs : (merge_event_data (merge_event_data A B t1) C t2).speakers
      = listUnion (listUnion A.speakers B.speakers) C.speakers := by
    show mergeListField (mergeListField A.speakers B.speakers) C.speakers = _
    rw [mergeListField_eq_union, mergeListField_eq_union]
  have hp : (merge_event_data (merge_event_data A B t1) C t2).prices
      = listUnion (listUnion A.prices B.prices) C.prices := by
    show mergeListField (mergeListField A.prices B.prices) C.prices = _
    rw [mergeListField_eq_union, mergeListField_eq_union]
  refine ⟨ht, ?_, ?_, hs, ?_, ?_, hp, ?_, ?_, ?_, ?_, ?_, ?_, ?_, ?_, ?_, ?_, ?_, ?_, rfl⟩
  · intro x
    rw [ht, mem_listUnion, mem_listUnion]
    tauto
  · rw [ht]
    exact nodup_listUnion (nodup_listUnion hA.1 hB.1) hC.1
  · intro x
    rw [hs, mem_listUnion, mem_listUnion]
    tauto
  · rw [hs]
    exact nodup_listUnion (nodup_listUnion hA.2.1 hB.2.1) hC.2.1
  · intro x
    rw [hp, mem_listUnion, mem_listUnion]
    tauto
  · rw [hp]
    exact nodup_listUnion (nodup_listUnion hA.2.2 hB.2.2) hC.2.2
  · -- the final description is one of the inputs' descriptions
    show mergeDescription (mergeDescription A.description B.description) C.description
        = A.description ∨ _ ∨ _
    rcases mergeDescription_cases (mergeDescription A.description B.description)
        C.description with h2 | h2
    · rcases mergeDescription_cases A.description B.description with h1 | h1
      · exact Or.inl (h2.trans h1)
      · exact Or.inr (Or.inl (h2.trans h1))
    · exact Or.inr (Or.inr h2)
  · -- description length domination
    intro v hv hsrc
    show ∃ w, mergeDescription (mergeDescription A.description B.description)
        C.description = some w ∧ v.length ≤ w.length
    rcases hsrc with h | h | h
    · obtain ⟨w, hw, hlen, hwne⟩ := mergeDescription_ge_ex B.description h hv
      obtain ⟨w2, hw2, hlen2, _⟩ := mergeDescription_ge_ex C.description hw hwne
      exact ⟨w2, hw2, le_trans hlen hlen2⟩
    · obtain ⟨w, hw, hlen, hwne⟩ := mergeDescription_ge_nw A.description h hv
      obtain ⟨w2, hw2, hlen2, _⟩ := mergeDescription_ge_ex C.description hw hwne
      exact ⟨w2, hw2, le_trans hlen hlen2⟩
    · obtain ⟨w, hw, hlen, _⟩ :=
        mergeDescription_ge_nw (mergeDescription A.description B.description) h hv
      exact ⟨w, hw, hlen⟩
  · -- every truthy dates reading survives as a contiguous part
    intro v hv hsrc
    show ∃ s, mergeDatesLoc (mergeDatesLoc A.dates B.dates) C.dates = some s ∧ v <:+: s
    rcases hsrc with h | h | h
    · exact mergeDatesLoc_contains_ex
        (mergeDatesLoc_contains_ex ⟨v, h, List.infix_refl v⟩ hv) hv
    · exact mergeDatesLoc_contains_ex (mergeDatesLoc_contains_nw h hv) hv
    · exact mergeDatesLoc_contains_nw h hv
  · intro v hv hsrc
    show ∃ s, mergeDatesLoc (mergeDatesLoc A.location B.location) C.location
        = some s ∧ v <:+: s
    rcases hsrc with h | h | h
    · exact mergeDatesLoc_contains_ex
        (mergeDatesLoc_contains_ex ⟨v, h, List.infix_refl v⟩ hv) hv
    · exact mergeDatesLoc_contains_ex (mergeDatesLoc_contains_nw h hv) hv
    · exact mergeDatesLoc_contains_nw h hv
  · -- A's event name is a prefix of the final name
    intro v hv h
    show ∃ s, mergeEventName (mergeEventName A.event_name B.event_name)
        C.event_name = some s ∧ v <+: s
    exact mergeEventName_prefix_kept
      (mergeEventName_prefix_kept ⟨v, h, List.prefix_refl v⟩ hv) hv
  · -- B's event name survives unless dropped by the similarity rule
    intro v hv h
    rcases mergeEventName_incoming A.event_name hv with ⟨s, hNs, hinf⟩ | hr
    · left
      refine mergeEventName_contains_mono C.event_name ⟨s, ?_, hinf⟩ hv
      show mergeEventName A.event_name B.event_name = some s
      rw [h]
      exact hNs
    · right
      obtain ⟨e, he, hsim, hkeep⟩ := hr
      refine ⟨e, he, hsim, ?_⟩
      show mergeEventName A.event_name B.event_name = A.event_name
      rw [h]
      exact hkeep
  · -- C's event name survives unless dropped by the similarity rule
    intro v hv h
    rcases mergeEventName_incoming (merge_event_data A B t1).event_name hv
        with ⟨s, hMs, hinf⟩ | hr
    · left
      refine ⟨s, ?_, hinf⟩
      show mergeEventName (merge_event_data A B t1).event_name C.event_name = some s
      rw [h]
      exact hMs
    · right
      obtain ⟨e, he, hsim, hkeep⟩ := hr
      refine ⟨e, he, hsim, ?_⟩
      show mergeEventName (merge_event_data A B t1).event_name C.event_name
          = (merge_event_data A B t1).event_name
      rw [h]
      exact hkeep
  · show mergeRegUrl (mergeRegUrl A.registration_url B.registration_url)
        C.registration_url = _
    rw [mergeRegUrl_eq, mergeRegUrl_eq]
  · show mergeNoRule (mergeNoRule A.organizer B.organizer) C.organizer = _
    rw [mergeNoRule_eq, mergeNoRule_eq]
  · show mergeNoRule (mergeNoRule A.source_url B.source_url) C.source_url = _
    rw [mergeNoRule_eq, mergeNoRule_eq]

def mergeCexA : PyEvent (List Char) :=
  ⟨none, none, none, none, some (lc "http://reg-a.example/w"), some (lc "OrgA"),
    none, [], [lc "t", lc "t"], [], none⟩

def mergeCexB : PyEvent (List Char) :=
  ⟨none, none, none, none, some (lc "http://reg-b.example/w"), some (lc "OrgB"),
    none, [], [], [], none⟩

def mergeCexC : PyEvent (List Char) :=
  ⟨none, none, none, none, none, none, none, [], [], [], none⟩

/-- C3 counterexample: after `merge(merge(A,B),C)`, A's non-empty
`registration_url` is gone (B's later value replaced it), B's non-empty
`organizer` is gone (the existing value silently wins on a key with no merge
rule) — neither of which is the description-length or name-similarity
tie-break — and a duplicate already inside A's `topics` survives, so the
element does not appear exactly once. -/
theorem merge_event_data_drops_scalars :
    (merge_event_data (merge_event_data mergeCexA mergeCexB (lc "t1")) mergeCexC
        (lc "t2")).registration_url = some (lc "http://reg-b.example/w") ∧
      listInfixOf (lc "http://reg-a.example/w") (lc "http://reg-b.example/w") = false ∧
      (merge_event_data (merge_event_data mergeCexA mergeCexB (lc "t1")) mergeCexC
        (lc "t2")).organizer = some (lc "OrgA") ∧
      listInfixOf (lc "OrgB") (lc "OrgA") = false ∧
      (merge_event_data (merge_event_data mergeCexA mergeCexB (lc "t1")) mergeCexC
        (lc "t2")).topics = [lc "t", lc "t"] := by
  decide

def mergeWitA : PyEvent (List Char) :=
  ⟨some (lc "AI Expo"), none, some (lc "March 3"), none, none, none, none,
    [lc "spk1"], [lc "ai"], [lc "$5"], none⟩

def mergeWitB : PyEvent (List Char) :=
  ⟨none, none, some (lc "March 4"), none, none, none, none,
    [lc "spk2"], [lc "ml"], [], none⟩

def mergeWitC : PyEvent (List Char) :=
  ⟨none, none, none, none, none, none, none, [], [], [], none⟩

theorem merge_event_data_composition_witness :
    ((mergeWitA.topics.Nodup ∧ mergeWitA.speakers.Nodup ∧ mergeWitA.prices.Nodup) ∧
      (mergeWitB.topics.Nodup ∧ mergeWitB.speakers.Nodup ∧ mergeWitB.prices.Nodup) ∧
      (mergeWitC.topics.Nodup ∧ mergeWitC.speakers.Nodup ∧ mergeWitC.prices.Nodup)) ∧
    (merge_event_data (merge_event_data mergeWitA mergeWitB (lc "t1")) mergeWitC
        (lc "t2")).topics
      = listUnion (listUnion mergeWitA.topics mergeWitB.topics) mergeWitC.topics :=
  ⟨⟨⟨by decide, by decide, by decide⟩, ⟨by decide, by decide, by decide⟩,
      ⟨by decide, by decide, by decide⟩⟩,
    (merge_event_data_composition mergeWitA mergeWitB mergeWitC (lc "t1") (lc "t2")
      ⟨by decide, by decide, by decide⟩ ⟨by decide, by decide, by decide⟩
      ⟨by decide, by decide, by decide⟩).1⟩

/-! ## C10: `merge_event_data` does not modify its arguments (heap model)

To make mutation observable, dicts and list values live in an explicit
store: an event dict holds immutable string scalars and references into a
list store (`σ` is the opaque domain of list elements, compared by Python
`==`).  `merged = existing_event.copy()` is a shallow copy: a NEW dict
object sharing the same list references; the list branch builds
`existing_value + [x for x in new_value if x not in existing_value]` — a
NEW list object — and rebinds only the copy's field (when the existing
field is falsy, `merged[key] = new_value` shares the incoming list object,
again without touching it).  Nothing is ever written through an old
reference. -/

structure HeapEvent where
  event_name : Option (List Char)
  description : Option (List Char)
  dates : Option (List Char)
  location : Option (List Char)
  registration_url : Option (List Char)
  organizer : Option (List Char)
  source_url : Option (List Char)
  last_updated : Option (List Char)
  speakers : Option Nat
  topics : Option Nat
  prices : Option Nat

structure MergeHeap (σ : Type) where
  dicts : List (Nat × HeapEvent)
  lists : List (Nat × List σ)
  fresh : Nat

def assocLookup {β : Type} (xs : List (Nat × β)) (i : Nat) : Option β :=
  (xs.find? (fun p => decide (p.1 = i))).map (fun p => p.2)

/-- One list-field iteration of the merge loop, over the list store:
returns the updated store, the updated allocation counter, and the
reference the copy's field ends up holding. -/
def heapListBranch {σ : Type} [DecidableEq σ] :
    List (Nat × List σ) → Nat → Option Nat → Option Nat →
      List (Nat × List σ) × Nat × Option Nat
  | h, fresh, exr, none => (h, fresh, exr)
  | h, fresh, none, some rn =>
    if ((assocLookup h rn).getD []).isEmpty then (h, fresh, none)
    else (h, fresh, some rn)
  | h, fresh, some re, some rn =>
    if ((assocLookup h rn).getD []).isEmpty then (h, fresh, some re)
    else if ((assocLookup h re).getD []).isEmpty then (h, fresh, some rn)
    else
      (h ++ [(fresh, (assocLookup h re).getD [] ++
          ((assocLookup h rn).getD []).filter
            (fun x => ¬ x ∈ (assocLookup h re).getD []))],
        fresh + 1, some fresh)

/-- `merge_event_data` over the heap: reads the two dicts, runs the three
list branches (allocating any union lists), builds the merged dict with the
scalar branch functions, and allocates it as a new object.  Returns the new
heap and the merged dict's reference (`none` when either argument id
dangles). -/
def heap_merge {σ : Type} [DecidableEq σ] (H : MergeHeap σ) (eid nid : Nat)
    (now : List Char) : MergeHeap σ × Option Nat :=
  match assocLookup H.dicts eid, assocLookup H.dicts nid with
  | some ex, some nw =>
    let s1 := heapListBranch H.lists H.fresh ex.speakers nw.speakers
    let s2 := heapListBranch s1.1 s1.2.1 ex.topics nw.topics
    let s3 := heapListBranch s2.1 s2.2.1 ex.prices nw.prices
    let merged : HeapEvent :=
      { event_name := mergeEventName ex.event_name nw.event_name
        description := mergeDescription ex.description nw.description
        dates := mergeDatesLoc ex.dates nw.dates
        location := mergeDatesLoc ex.location nw.location
        registration_url := mergeRegUrl ex.registration_url nw.registration_url
        organizer := mergeNoRule ex.organizer nw.organizer
        source_url := mergeNoRule ex.source_url nw.source_url
        last_updated := some now
        speakers := s1.2.2
        topics := s2.2.2
        prices := s3.2.2 }
    (⟨H.dicts ++ [(s3.2.1, merged)], s3.1, s3.2.1 + 1⟩, some s3.2.1)
  | _, _ => (H, none)

theorem assocLookup_append_ne {β : Type} (xs : List (Nat × β)) (j : Nat) (v : β)
    (i : Nat) (h : i ≠ j) :
    assocLookup (xs ++ [(j, v)]) i = assocLookup xs i := by
  induction xs with
  | nil =>
    have hd : (decide (j = i)) = false := by
      simp only [decide_eq_false_iff_not]
      exact fun hji => h hji.symm
    simp [assocLookup, List.find?, hd]
  | cons p rest ih =>
    by_cases hp : p.1 = i
    · simp [assocLookup, List.find?, hp]
    · have hd : (decide (p.1 = i)) = false := by simpa using hp
      simp only [List.cons_append, assocLookup, List.find?, hd]
      exact ih

theorem heapListBranch_frame {σ : Type} [DecidableEq σ]
    (h : List (Nat × List σ)) (fresh : Nat) (exr nwr : Option Nat) :
    (∀ i, i < fresh →
        assocLookup (heapListBranch h fresh exr nwr).1 i = assocLookup h i) ∧
      fresh ≤ (heapListBranch h fresh exr nwr).2.1 := by
  rcases nwr with _ | rn
  · rcases exr with _ | re
    · exact ⟨fun i _ => rfl, le_refl _⟩
    · exact ⟨fun i _ => rfl, le_refl _⟩
  · rcases exr with _ | re
    · simp only [heapListBranch]
      by_cases hn : ((assocLookup h rn).getD ([] : List σ)).isEmpty
      · rw [if_pos hn]
        exact ⟨fun i _ => rfl, le_refl _⟩
      · rw [if_neg hn]
        exact ⟨fun i _ => rfl, le_refl _⟩
    · simp only [heapListBranch]
      by_cases hn : ((assocLookup h rn).getD ([] : List σ)).isEmpty
      · rw [if_pos hn]
        exact ⟨fun i _ => rfl, le_refl _⟩
      · rw [if_neg hn]
        by_cases he : ((assocLookup h re).getD ([] : List σ)).isEmpty
        · rw [if_pos he]
          exact ⟨fun i _ => rfl, le_refl _⟩
        · rw [if_neg he]
          refine ⟨fun i hi => assocLookup_append_ne _ _ _ _ (by omega), ?_⟩
          exact Nat.le_succ fresh

/-- C10: running the merge over the heap changes no pre-existing object:
every dict binding (in particular both argument dicts, hence every key's
top-level value) and every list object reads back unchanged, and the merged
dict is a freshly allocated object whose id collides with no pre-existing
dict or list. -/
theorem heap_merge_frame {σ : Type} [DecidableEq σ] (H : MergeHeap σ)
    (eid nid : Nat) (now : List Char)
    (hwf : ∀ i ∈ (H.dicts.map Prod.fst) ++ (H.lists.map Prod.fst), i < H.fresh) :
    (∀ i ∈ H.dicts.map Prod.fst,
        assocLookup (heap_merge H eid nid now).1.dicts i = assocLookup H.dicts i) ∧
      (∀ r ∈ H.lists.map Prod.fst,
        assocLookup (heap_merge H eid nid now).1.lists r = assocLookup H.lists r) ∧
      (∀ rid, (heap_merge H eid nid now).2 = some rid →
        ¬ rid ∈ H.dicts.map Prod.fst ∧ ¬ rid ∈ H.lists.map Prod.fst) := by
  unfold heap_merge
  rcases hex : assocLookup H.dicts eid with _ | ex
  · exact ⟨fun i _ => rfl, fun r _ => rfl, fun rid h => by simp at h⟩
  · rcases hnw : assocLookup H.dicts nid with _ | nw
    · exact ⟨fun i _ => rfl, fun r _ => rfl, fun rid h => by simp at h⟩
    · have f1 := heapListBranch_frame H.lists H.fresh ex.speakers nw.speakers
      have f2 := heapListBranch_frame (heapListBranch H.lists H.fresh ex.speakers
        nw.speakers).1 (heapListBranch H.lists H.fresh ex.speakers nw.speakers).2.1
        ex.topics nw.topics
      have f3 := heapListBranch_frame (heapListBranch (heapListBranch H.lists H.fresh
        ex.speakers nw.speakers).1 (heapListBranch H.lists H.fresh ex.speakers
        nw.speakers).2.1 ex.topics nw.topics).1
        (heapListBranch (heapListBranch H.lists H.fresh ex.speakers nw.speakers).1
          (heapListBranch H.lists H.fresh ex.speakers nw.speakers).2.1 ex.topics
          nw.topics).2.1 ex.prices nw.prices
      have hb1 := f1.2
      have hb2 := f2.2
      have hb3 := f3.2
      refine ⟨?_, ?_, ?_⟩
      · intro i hi
        have hilt : i < H.fresh := hwf i (by simp [hi])
        exact assocLookup_append_ne _ _ _ _ (by omega)
      · intro r hr
        have hrlt : r < H.fresh := hwf r (by simp [hr])
        rw [f3.1 r (by omega), f2.1 r (by omega), f1.1 r hrlt]
      · intro rid hrid
        have hridv : (heapListBranch (heapListBranch (heapListBranch H.lists
            H.fresh ex.speakers nw.speakers).1 (heapListBranch H.lists H.fresh
            ex.speakers nw.speakers).2.1 ex.topics nw.topics).1
            (heapListBranch (heapListBranch H.lists H.fresh ex.speakers
              nw.speakers).1 (heapListBranch H.lists H.fresh ex.speakers
              nw.speakers).2.1 ex.topics nw.topics).2.1 ex.prices nw.prices).2.1
            = rid := by
          simpa using hrid
        constructor
        · intro hin
          have := hwf rid (by simp [hin])
          omega
        · intro hin
          have := hwf rid (by simp [hin])
          omega

def heapWitEx : HeapEvent :=
  ⟨some (lc "E"), none, none, none, none, none, none, none, none, some 2, none⟩

def heapWitNw : HeapEvent :=
  ⟨none, none, none, none, none, none, none, none, none, some 3, none⟩

def heapWitH : MergeHeap (List Char) :=
  ⟨[(0, heapWitEx), (1, heapWitNw)], [(2, [lc "a"]), (3, [lc "b"])], 4⟩

theorem heap_merge_frame_witness :
    (∀ i ∈ (heapWitH.dicts.map Prod.fst) ++ (heapWitH.lists.map Prod.fst),
        i < heapWitH.fresh) ∧
      assocLookup (heap_merge heapWitH 0 1 (lc "t")).1.lists 2
        = assocLookup heapWitH.lists 2 :=
  ⟨by decide,
    (heap_merge_frame heapWitH 0 1 (lc "t") (by decide)).2.1 2 (by decide)⟩
